import Mathlib

/-!
Shallow embedding of `parse_pdf_text_by_toc` from `src/MML_get.py` (the core
of the PDF-security-report parser), together with theorems settling the
frozen claims about it.

Conventions of the embedding:
* Python strings are modelled as `List Char` internally, wrapped into `String`
  at the record boundary.
* Python's regex class `\s` is modelled on the ASCII whitespace set
  (space, tab, newline, carriage return, vertical tab, form feed) and `\d`
  as the ASCII decimal digits; the inputs of this program are extracted
  PDF text, for which this is the relevant alphabet.
* Each `re.sub` / `re.search` / `re.findall` call of the source is embedded
  by a dedicated function implementing the leftmost-match scan semantics of
  that concrete pattern (greedy and lazy quantifiers resolved on paper for
  the fixed pattern, as noted at each definition).
* Scanning functions whose recursion consumes a computed suffix are written
  with an explicit fuel argument, initialised with the length of the input,
  which is an upper bound for the number of scan steps (every step consumes
  at least one character of the remaining input).
-/

set_option maxRecDepth 100000

namespace MMLGet

/-- Python regex `\s` (ASCII part): the whitespace characters. -/
def isWs (c : Char) : Bool :=
  c = ' ' || c = '\t' || c = '\n' || c = '\r' || c = '\x0b' || c = '\x0c'

/-- Python regex `\d` (ASCII part): the decimal digits. -/
def isDigit (c : Char) : Bool :=
  '0' ≤ c && c ≤ '9'

/-- `re.sub(r'\s*\n\s*\.\s*', '.', full_text)` (line 20 of the source).
A match at a scan position exists iff the maximal whitespace run starting
there contains a newline and the first character after the run is a literal
dot; the match then covers the run, the dot and the following maximal
whitespace run, and is replaced by a single dot. -/
def subDotBreakF : Nat → List Char → List Char
  | 0, l => l
  | _ + 1, [] => []
  | f + 1, c :: r =>
    let w := (c :: r).takeWhile isWs
    let r1 := (c :: r).dropWhile isWs
    if '\n' ∈ w then
      match r1 with
      | '.' :: r2 => '.' :: subDotBreakF f (r2.dropWhile isWs)
      | _ => c :: subDotBreakF f r
    else c :: subDotBreakF f r

/-- `re.sub(r'-\s*\n\s*', '', full_text)` (line 22 of the source).
A match at a scan position exists iff the character there is `-` and the
maximal whitespace run after it contains a newline; the match covers the
hyphen and the whole run and is deleted. -/
def subHyphenBreakF : Nat → List Char → List Char
  | 0, l => l
  | _ + 1, [] => []
  | f + 1, c :: r =>
    if c = '-' ∧ '\n' ∈ r.takeWhile isWs then
      subHyphenBreakF f (r.dropWhile isWs)
    else c :: subHyphenBreakF f r

/-- `re.sub(r'\s*\n\s*', ' ', full_text)` (line 24 of the source).
A match at a scan position exists iff the maximal whitespace run starting
there contains a newline; the run is replaced by a single space. -/
def subNewlinesF : Nat → List Char → List Char
  | 0, l => l
  | _ + 1, [] => []
  | f + 1, c :: r =>
    if '\n' ∈ (c :: r).takeWhile isWs then
      ' ' :: subNewlinesF f ((c :: r).dropWhile isWs)
    else c :: subNewlinesF f r

/-- `re.sub(r'\s+', ' ', ...)` (line 26 of the source): every maximal
whitespace run collapses to a single space (emitted at the end of the run). -/
def subSpaces : List Char → List Char
  | [] => []
  | c :: r =>
    if isWs c then
      match r with
      | [] => [' ']
      | c2 :: _ => if isWs c2 then subSpaces r else ' ' :: subSpaces r
    else c :: subSpaces r

/-- Python `str.strip()`: remove leading and trailing whitespace. -/
def stripChars (l : List Char) : List Char :=
  ((l.dropWhile isWs).reverse.dropWhile isWs).reverse

/-- The whole preprocessing block, lines 20-26 of the source, applied in the
source's order. -/
def normalizeChars (l : List Char) : List Char :=
  let l1 := subDotBreakF l.length l
  let l2 := subHyphenBreakF l1.length l1
  let l3 := subNewlinesF l2.length l2
  stripChars (subSpaces l3)

/-! ## TOC parsing (lines 28-40 of the source)

The two `re.findall` patterns
`•\s*(\d+(?:\.\d+)+)\s+([^\n]+?)\s*\.{3,}\s*\d+` and its bullet-free
fallback are embedded by a matcher `tocMatchAt` plus a left-to-right
non-overlapping scan `scanTocF`.  For this fixed pattern the quantifier
semantics resolve as follows: `\d+(?:\.\d+)+` is a pure greedy parse
(any backtracking into it leaves the rest starting with a digit or a dot,
on which the mandatory `\s+` fails, so backtracking never helps);
`([^\n]+?)` is lazy, growing one character at a time until the trailer
`\s*\.{3,}\s*\d+` matches right after it; inside the trailer all
quantifiers are greedy and backtracking never helps (a dot is not
whitespace and not a digit).  The `re.IGNORECASE` flag is irrelevant
(the pattern has no cased letter) and `re.DOTALL` is irrelevant (the
pattern has no bare `.`).

One known modelling limit: the separator `\s+` between the number and the
title is committed here to the maximal whitespace run, while the regex
engine can backtrack it and let the lazy title start inside that run.
The two behaviours differ only when the only viable title begins with
whitespace (e.g. a line like "1.1  ...4", where the engine captures the
title " "); every theorem below either evaluates inputs whose titles
start with a non-whitespace character or assumes that explicitly. -/

/-- The trailer `\s*\.{3,}\s*\d+` of the TOC patterns, matched at the head
of the input; returns the rest after the match. -/
def trailerMatch (l : List Char) : Option (List Char) :=
  if 3 ≤ ((l.dropWhile isWs).takeWhile (· = '.')).length then
    if (((((l.dropWhile isWs).dropWhile (· = '.')).dropWhile isWs).takeWhile isDigit)).isEmpty
    then none
    else some ((((l.dropWhile isWs).dropWhile (· = '.')).dropWhile isWs).dropWhile isDigit)
  else none

/-- The lazy title group `([^\n]+?)` followed by the trailer: the shortest
nonempty newline-free prefix after which the trailer matches.  Returns the
captured title and the rest after the trailer. -/
def lazyTitle : List Char → Option (List Char × List Char)
  | [] => none
  | c :: t =>
    if c = '\n' then none
    else
      match trailerMatch t with
      | some rest => some ([c], rest)
      | none =>
        match lazyTitle t with
        | some (ti, rest) => some (c :: ti, rest)
        | none => none

/-- The group `(?:\.\d+)+`, greedy: one or more dot-plus-digit-run blocks.
Returns the consumed characters and the rest.  Fuel bounds the number of
blocks; every block consumes at least two characters. -/
def numTailF : Nat → List Char → Option (List Char × List Char)
  | 0, _ => none
  | f + 1, l =>
    match l with
    | [] => none
    | c :: r =>
      if c = '.' then
        if (r.takeWhile isDigit).isEmpty then none
        else
          match numTailF f (r.dropWhile isDigit) with
          | some (cs, rest) => some ('.' :: r.takeWhile isDigit ++ cs, rest)
          | none => some ('.' :: r.takeWhile isDigit, r.dropWhile isDigit)
      else none

/-- The number group `(\d+(?:\.\d+)+)` at the head of the input: a digit
run followed by at least one dot-digit-run block. -/
def numberParse (l : List Char) : Option (List Char × List Char) :=
  if (l.takeWhile isDigit).isEmpty then none
  else
    match numTailF l.length (l.dropWhile isDigit) with
    | some (c, rest) => some (l.takeWhile isDigit ++ c, rest)
    | none => none

/-- One attempt of the bullet-free part of the TOC pattern at the current
scan position: number group, mandatory whitespace `\s+`, lazy title,
trailer.  Returns the two captured groups and the rest of the input after
the match. -/
def tocMatchCore (l1 : List Char) : Option ((List Char × List Char) × List Char) :=
  match numberParse l1 with
  | none => none
  | some (num, r1) =>
    if (r1.takeWhile isWs).isEmpty then none
    else
      match lazyTitle (r1.dropWhile isWs) with
      | none => none
      | some (ti, rest) => some ((num, ti), rest)

/-- One attempt of the full TOC pattern: with `bullet := true` a literal
`•` followed by `\s*` is required before the core. -/
def tocMatchAt (bullet : Bool) (l : List Char) : Option ((List Char × List Char) × List Char) :=
  if bullet then
    match l with
    | [] => none
    | c :: r => if c = '•' then tocMatchCore (r.dropWhile isWs) else none
  else tocMatchCore l

/-- `re.findall` scan: leftmost non-overlapping matches, resuming right
after each match, advancing one character on failure. -/
def scanTocF : Nat → Bool → List Char → List (List Char × List Char)
  | 0, _, _ => []
  | _ + 1, _, [] => []
  | f + 1, b, l@(_ :: t) =>
    match tocMatchAt b l with
    | some (g, rest) => g :: scanTocF f b rest
    | none => scanTocF f b t

/-- All matches of the TOC pattern in a text (fuel instantiated with the
text length, an upper bound on the number of scan steps). -/
def tocScan (bullet : Bool) (l : List Char) : List (List Char × List Char) :=
  scanTocF l.length bullet l

/-- `re.sub(r'\.{3,}\s*\d+', '', description)` (line 39 of the source):
delete every run of three-or-more dots followed by optional whitespace and
a digit run. -/
def cleanDescF : Nat → List Char → List Char
  | 0, l => l
  | _ + 1, [] => []
  | f + 1, c :: r =>
    let dots := (c :: r).takeWhile (· = '.')
    if 3 ≤ dots.length then
      let r1 := (c :: r).dropWhile (· = '.')
      let r2 := r1.dropWhile isWs
      if (r2.takeWhile isDigit).isEmpty then c :: cleanDescF f r
      else cleanDescF f (r2.dropWhile isDigit)
    else c :: cleanDescF f r

/-- A TOC entry: section number and cleaned title (`toc_entries` items of
the source, lines 37-40). -/
structure TocEntry where
  number : String
  description : String
  deriving DecidableEq, Repr

/-- Lines 29-40 of the source: scan with the bulleted pattern; if that
yields nothing, rescan with the bullet-free fallback; then strip the number
and clean page-number leaders out of the captured title. -/
def tocEntries (toc_text : String) : List TocEntry :=
  let l := toc_text.data
  let toc_lines := tocScan true l
  let toc_lines := if toc_lines.isEmpty then tocScan false l else toc_lines
  toc_lines.map fun g =>
    ⟨String.mk (stripChars g.1), String.mk (stripChars (cleanDescF g.2.length g.2))⟩

/-! ## Field extraction (lines 69-94 of the source)

Each `re.search(r'<Label>\s*(.*?)(?=\s*<Stop1>|...|\s*$)', sc, re.DOTALL)`
resolves, for this fixed pattern shape, to: find the leftmost occurrence of
the literal label (every occurrence yields a match, since the lazy group
can always extend to the end of the input, where `\s*$` holds); skip the
maximal whitespace run after it; then capture the shortest prefix after
which one of the lookahead alternatives holds.  A lookahead alternative
`\s*<Stop>` holds iff the stop literal starts right after the maximal
whitespace run (a stop literal starts with a non-whitespace character), and
`\s*$` holds iff the rest is all whitespace (without `re.MULTILINE`, `$`
only matches at the end or before a final newline, which is itself
whitespace).  `re.DOTALL` lets the lazy group cross newlines, which the
embedding does anyway. -/

/-- One lookahead test `(?=\s*Stop1|...|\s*$)` at the current position. -/
def stopCheck (stops : List (List Char)) (l : List Char) : Bool :=
  stops.any (fun st => st.isPrefixOf (l.dropWhile isWs)) || l.all isWs

/-- The lazy group `(.*?)` before the lookahead: shortest prefix after which
`stopCheck` holds (it always holds at the end of the input). -/
def lazyCapture (stops : List (List Char)) : List Char → List Char
  | [] => []
  | c :: t => if stopCheck stops (c :: t) then [] else c :: lazyCapture stops t

/-- `re.search(r'Label\s*(.*?)(?=\s*Stop|\s*$)', sc)`: leftmost label
occurrence, then the captured group. -/
def searchCapture (label : List Char) (stops : List (List Char)) : List Char → Option (List Char)
  | [] => if label.isEmpty then some [] else none
  | l@(_ :: t) =>
    if label.isPrefixOf l then
      some (lazyCapture stops ((l.drop label.length).dropWhile isWs))
    else searchCapture label stops t

/-- The bracketed status test `\*\* (FAILED|PASSED|SKIPPED) \*\*` at the
current position (at most one alternative can match at a position). -/
def bracketAt (l : List Char) : Option String :=
  if "** FAILED **".data.isPrefixOf l then some "FAILED"
  else if "** PASSED **".data.isPrefixOf l then some "PASSED"
  else if "** SKIPPED **".data.isPrefixOf l then some "SKIPPED"
  else none

/-- `re.search(r'\*\* (FAILED|PASSED|SKIPPED) \*\*', sc)` (line 72). -/
def searchBracket : List Char → Option String
  | [] => none
  | l@(_ :: t) =>
    match bracketAt l with
    | some w => some w
    | none => searchBracket t

/-- Case-insensitive literal test (`re.IGNORECASE`, ASCII). -/
def ciPrefix (pat : List Char) (l : List Char) : Bool :=
  (l.take pat.length).map Char.toLower = pat

/-- The fallback status test `Policy Value\s*\n\s*(FAILED|PASSED|SKIPPED)`
with `re.IGNORECASE` at the current position: the label case-insensitively,
then a maximal whitespace run that must contain a newline (greedy `\s*`
backtracks to the last newline of the run; the following `\s*` then has to
reach the first non-whitespace character, where the status word must
start), then the status word case-insensitively. -/
def fallbackAt (l : List Char) : Option String :=
  if ciPrefix "policy value".data l then
    let r := l.drop 12
    if '\n' ∈ r.takeWhile isWs then
      let r2 := r.dropWhile isWs
      if ciPrefix "failed".data r2 then some "FAILED"
      else if ciPrefix "passed".data r2 then some "PASSED"
      else if ciPrefix "skipped".data r2 then some "SKIPPED"
      else none
    else none
  else none

/-- `re.search(r'Policy Value\s*\n\s*(FAILED|PASSED|SKIPPED)', sc, re.IGNORECASE)`
(line 74). -/
def searchFallback : List Char → Option String
  | [] => none
  | l@(_ :: t) =>
    match fallbackAt l with
    | some w => some w
    | none => searchFallback t

/-- Lines 72-75: bracketed marker first, then the newline fallback, else
`'N/A'`.  `group(1).upper()` is the identity on the already-uppercase
alternatives returned here. -/
def extractType (sc : List Char) : String :=
  match searchBracket sc with
  | some w => w
  | none =>
    match searchFallback sc with
    | some w => w
    | none => "N/A"

/-- `match.group(1).strip() if match else 'N/A'`. -/
def strippedOr (o : Option (List Char)) : String :=
  match o with
  | some v => String.mk (stripChars v)
  | none => "N/A"

/-- Python `str.split('\n')` on a character list. -/
def splitNl : List Char → List (List Char)
  | [] => [[]]
  | c :: r =>
    match splitNl r with
    | [] => [[]]
    | h :: t => if c = '\n' then [] :: h :: t else (c :: h) :: t

/-- One output record (the dict appended at lines 85-94 of the source). -/
structure Record where
  number : String
  description : String
  type_ : String
  info : String
  solution : String
  references : List String
  auditFile : String
  policyValue : String
  deriving DecidableEq, Repr

/-- Lines 69-94: extract all fields of one record from one section. -/
def buildRecord (e : TocEntry) (sc : List Char) : Record where
  number := e.number
  description := e.description
  type_ := extractType sc
  info := strippedOr (searchCapture "Info".data ["Solution".data] sc)
  solution := strippedOr (searchCapture "Solution".data ["See Also".data, "References".data] sc)
  references :=
    match searchCapture "References".data ["Audit File".data] sc with
    | some v => (splitNl (stripChars v)).map String.mk
    | none => ["N/A"]
  auditFile := strippedOr (searchCapture "Audit File".data ["Policy Value".data] sc)
  policyValue := strippedOr (searchCapture "Policy Value".data ["Hosts".data] sc)

/-! ## Segmentation loop (lines 42-96 of the source) -/

/-- Python `str.find(needle)` on character lists: index of the leftmost
occurrence, `none` for Python's `-1`. -/
def strFindAux (needle : List Char) : List Char → Nat → Option Nat
  | l, i =>
    if needle.isPrefixOf l then some i
    else
      match l with
      | [] => none
      | _ :: t => strFindAux needle t (i + 1)

def strFind (hay needle : List Char) : Option Nat :=
  strFindAux needle hay 0

/-- Python `str.find(needle, start)`: leftmost occurrence at index ≥ start. -/
def strFindFrom (hay needle : List Char) (start : Nat) : Option Nat :=
  (strFind (hay.drop start) needle).map (· + start)

/-- `f"{e['number']} {e['description']}"` (lines 49 and 61). -/
def anchorOf (e : TocEntry) : List Char :=
  e.number.data ++ ' ' :: e.description.data

/-- Python slice `full_text[s:e]`. -/
def sliceOf (l : List Char) (s e : Nat) : List Char :=
  (l.drop s).take (e - s)

/-- Lines 58-64: the end of the current section; the next entry's anchor is
searched only from the end of the current anchor onward, and the section
runs to the end of the text if that search fails or there is no next entry. -/
def endIdx (full : List Char) (si alen : Nat) (rest : List TocEntry) : Nat :=
  match rest with
  | [] => full.length
  | ne :: _ =>
    match strFindFrom full (anchorOf ne) (si + alen) with
    | some j => j
    | none => full.length

/-- The loop of lines 45-94, keeping the located start index of each
emitted record.  Note line 50 of the source: the anchor of the current
entry is searched with `full_text.find(start_string)`, i.e. always from
position 0 of the normalized text.  The only effect of an unlocated
anchor is a diagnostic print (line 54), which this pure embedding drops. -/
def parsePdfAux (full : List Char) : List TocEntry → List (Nat × Record)
  | [] => []
  | e :: rest =>
    match strFind full (anchorOf e) with
    | none => parsePdfAux full rest
    | some si =>
      let a := anchorOf e
      let ei := endIdx full si a.length rest
      (si, buildRecord e (sliceOf full si ei)) :: parsePdfAux full rest

/-- `parse_pdf_text_by_toc` (lines 7-96 of the source). -/
def parse_pdf_text_by_toc (toc_text full_text : String) : List Record :=
  (parsePdfAux (normalizeChars full_text.data) (tocEntries toc_text)).map Prod.snd

/-- The section carved for each located entry, as the loop carves it
(used to state the segment-dependence claims). -/
def codeSegments (full : List Char) : List TocEntry → List (TocEntry × List Char)
  | [] => []
  | e :: rest =>
    match strFind full (anchorOf e) with
    | none => codeSegments full rest
    | some si =>
      (e, sliceOf full si (endIdx full si (anchorOf e).length rest)) :: codeSegments full rest

/-- Comparator for the search-cursor claim, following the spec's words
rather than the code: the anchor of each entry is searched from the
position at which the previous successfully-located anchor ended (from 0
for the first entry), and an unlocated entry does not advance the cursor.
The section-end search is unchanged. -/
def parsePdfSpecAux (full : List Char) (cursor : Nat) : List TocEntry → List Record
  | [] => []
  | e :: rest =>
    match strFindFrom full (anchorOf e) cursor with
    | none => parsePdfSpecAux full cursor rest
    | some si =>
      let ei := endIdx full si (anchorOf e).length rest
      buildRecord e (sliceOf full si ei) :: parsePdfSpecAux full (si + (anchorOf e).length) rest

/-- The whole pipeline with the spec's forward-moving anchor search. -/
def parseSpecForward (toc_text full_text : String) : List Record :=
  parsePdfSpecAux (normalizeChars full_text.data) 0 (tocEntries toc_text)

/-! ## Inputs for the concrete theorems -/

def tocC1 : String := "• 1.1 Alpha ...... 3\n• 1.2 Beta ...... 4"

def bodyC1 : String := "1.2 Beta 1.1 Alpha tail"

def tocC2 : String := "• 1.1 Ensure Test Item ...... 5"

def bodyC2 : String :=
  "1.1 Ensure Test Item ** FAILED ** Info Do X. Solution Do Y. References http://a References Audit File cmd --check Policy Value true Hosts host1"

def tocC3 : String := "• 1.1 Alpha ...... 1\n• 1.2 Beta ...... 2\n• 1.3 Gamma ...... 3"

def bodyC3a : String := "1.1 Alpha Info hello 1.3 Gamma beta"

def bodyC3b : String := "1.1 Alpha Info hello 1.3 Gamma gamma"

def tocC5 : String := "• 1.1 Alpha ...... 1\n• 1.2 Beta ...... 2\n• 1.3 Gamma ...... 3"

def tocC5drop : String := "• 1.1 Alpha ...... 1\n• 1.3 Gamma ...... 3"

def bodyC5 : String := "1.1 Alpha Info hello 1.3 Gamma beta"

/-! ## Claim C8: idempotence of the normalization

A normalized string is characterised by: no newline, every whitespace
character is a plain space, no two adjacent whitespace characters, and no
leading or trailing whitespace.  On such strings all four passes are the
identity. -/

/-- No two adjacent whitespace characters. -/
def NoWsPair (l : List Char) : Prop :=
  l.Chain' (fun a b => ¬(isWs a ∧ isWs b))

/-- Every whitespace character is a plain space. -/
def wsSp (l : List Char) : Prop :=
  ∀ c ∈ l, isWs c → c = ' '

/-- The head, if any, is not whitespace. -/
def headOk (l : List Char) : Prop :=
  ∀ c, l.head? = some c → ¬ isWs c

/-- The last character, if any, is not whitespace. -/
def lastOk (l : List Char) : Prop :=
  ∀ c, l.getLast? = some c → ¬ isWs c

/-- The rendered group blocks `(\.\d+)+` of a numeral path. -/
def renderGroups (groups : List (List Char)) : List Char :=
  (groups.map (fun g => '.' :: g)).flatten

/-- The rendered numeral path `\d+(\.\d+)+` of a TOC entry. -/
def renderNum (first : List Char) (groups : List (List Char)) : List Char :=
  first ++ renderGroups groups

/-- A decomposed bulleted TOC line: bullet, whitespace, numeral path,
whitespace, title, whitespace, leader dots, whitespace, page number. -/
def bulletLine (ws1 first : List Char) (groups : List (List Char))
    (ws2 title ws3 dots ws4 page : List Char) : List Char :=
  '•' :: (ws1 ++ (renderNum first groups
    ++ (ws2 ++ (title ++ (ws3 ++ (dots ++ (ws4 ++ page)))))))

/-! ## Claim C9 -/

/-- The decomposed pieces of one structured TOC entry line. -/
structure LineParts where
  first : List Char
  groups : List (List Char)
  ws2 : List Char
  title : List Char
  ws3 : List Char
  dots : List Char
  ws4 : List Char
  page : List Char

/-- Rendering of one bullet-free entry line. -/
def LineParts.render (L : LineParts) : List Char :=
  renderNum L.first L.groups
    ++ (L.ws2 ++ (L.title ++ (L.ws3 ++ (L.dots ++ (L.ws4 ++ L.page)))))

/-- Well-formedness of the pieces: digit-and-dot numeral path, nonempty
whitespace separator, a title free of newlines, dots and bullets that
neither starts nor ends with whitespace, at least three leader dots, and a
nonempty page number. -/
def LineParts.wf (L : LineParts) : Prop :=
  L.first ≠ [] ∧ (∀ c ∈ L.first, isDigit c) ∧
  L.groups ≠ [] ∧ (∀ g ∈ L.groups, g ≠ [] ∧ ∀ c ∈ g, isDigit c) ∧
  L.ws2 ≠ [] ∧ (∀ c ∈ L.ws2, isWs c) ∧
  L.title ≠ [] ∧ (∀ c ∈ L.title, c ≠ '\n' ∧ c ≠ '.' ∧ c ≠ '•') ∧
  (∀ c, L.title.head? = some c → ¬ isWs c) ∧
  (∃ c, L.title.getLast? = some c ∧ ¬ isWs c) ∧
  (∀ c ∈ L.ws3, isWs c) ∧ (∀ c ∈ L.dots, c = '.') ∧ 3 ≤ L.dots.length ∧
  (∀ c ∈ L.ws4, isWs c) ∧ L.page ≠ [] ∧ (∀ c ∈ L.page, isDigit c)

/-- The two regex groups captured from one entry line. -/
def LineParts.capture (L : LineParts) : List Char × List Char :=
  (renderNum L.first L.groups, L.title)

/-- Joining lines with single newlines, as the raw TOC text has them. -/
def joinNl : List (List Char) → List Char
  | [] => []
  | [x] => x
  | x :: y :: ys => x ++ '\n' :: joinNl (y :: ys)

def c9wL1 : LineParts := ⟨['1'], [['1']], [' '], "Alpha".data, [' '], "......".data, [' '], ['3']⟩

def c9wL2 : LineParts := ⟨['2'], [['2']], [' '], "Beta".data, [' '], "......".data, [' '], ['4']⟩

example : normalizeChars "ID\n.IM".data = "ID.IM".data := by decide

example : normalizeChars "ab-\n cd".data = "abcd".data := by decide

example : normalizeChars "  a \n b\t c  ".data = "a b c".data := by decide

example : normalizeChars "a \n \n . b".data = "a.b".data := by decide

example : tocEntries "• 1.1 Ensure Test Item ...... 5" =
    [⟨"1.1", "Ensure Test Item"⟩] := by decide

example : tocEntries "1.1.1 Alpha beta ... 12\n1.2 Gamma .....34" =
    [⟨"1.1.1", "Alpha beta"⟩, ⟨"1.2", "Gamma"⟩] := by decide

example : tocEntries "• 1.1 Ensure\nTest ...... 5" = [] := by decide

/-! ## Structural lemmas about the segmentation loop -/

/-- The located start index of every emitted record is the result of
`full_text.find(start_string)` with no start offset, independent of the
entry's position in the TOC and of all other entries. -/
theorem parsePdfAux_fst (full : List Char) (L : List TocEntry) :
    (parsePdfAux full L).map Prod.fst = L.filterMap (fun e => strFind full (anchorOf e)) := by
  induction L with
  | nil => rfl
  | cons e rest ih =>
    simp only [parsePdfAux, List.filterMap_cons]
    cases h : strFind full (anchorOf e) with
    | none => simpa using ih
    | some si => simpa using ih

/-- The records are exactly the per-section extraction mapped over the
sections the loop carves. -/
theorem parsePdfAux_eq_segments (full : List Char) (L : List TocEntry) :
    (parsePdfAux full L).map Prod.snd
      = (codeSegments full L).map (fun p => buildRecord p.1 p.2) := by
  induction L with
  | nil => rfl
  | cons e rest ih =>
    simp only [parsePdfAux, codeSegments]
    cases h : strFind full (anchorOf e) with
    | none => simpa using ih
    | some si => simpa using ih

/-- The (number, description) pairs of the output are those of the entries
whose anchor occurs somewhere in the text, in TOC order. -/
theorem parsePdfAux_numdesc (full : List Char) (L : List TocEntry) :
    (parsePdfAux full L).map (fun p => (p.2.number, p.2.description))
      = (L.filter (fun e => (strFind full (anchorOf e)).isSome)).map
          (fun e => (e.number, e.description)) := by
  induction L with
  | nil => rfl
  | cons e rest ih =>
    simp only [parsePdfAux, List.filter_cons]
    cases h : strFind full (anchorOf e) with
    | none => simpa [h] using ih
    | some si => simpa [h, buildRecord] using ih

/-! ## Claim C1 -/

/-- C1, counterexample: the claim says the anchor search for entry i > 0
starts where the previous located anchor ended.  In the code (line 50) the
search is `full_text.find(start_string)` with no start offset.  Here the
TOC lists 1.1 before 1.2 but the body contains "1.2 Beta" only before
"1.1 Alpha": the code still emits a record for 1.2 (located at index 0 by
re-scanning earlier text), while a forward-from-previous-anchor search,
embodied by `parseSpecForward`, finds nothing and drops the entry. -/
theorem c1_counterexample :
    (parse_pdf_text_by_toc tocC1 bodyC1).map Record.number = ["1.1", "1.2"] ∧
    (parseSpecForward tocC1 bodyC1).map Record.number = ["1.1"] := by
  constructor <;> decide

/-- C1, amended: for every call and every TOC entry, the anchor search
starts at position 0 of the normalized body text — the located index of
each emitted record is the index of the first occurrence of its anchor in
the whole text, independent of the entry's position and of the other
entries (so earlier text is re-scanned for every entry). -/
theorem c1_amended (toc_text full_text : String) :
    (parsePdfAux (normalizeChars full_text.data) (tocEntries toc_text)).map Prod.fst
      = (tocEntries toc_text).filterMap
          (fun e => strFind (normalizeChars full_text.data) (anchorOf e)) :=
  parsePdfAux_fst _ _

/-! ## Claim C2 -/

/-- C2, counterexample: on the claim's exact input the output is not the
claimed record list: the `references` field is `["http://a References"]`,
not `["http://a"]` — the lazy group of
`References\s*(.*?)(?=\s*Audit File|\s*$)` starts after the first
"References" and can only stop right before "Audit File", so it also
captures the second "References" token. -/
theorem c2_counterexample :
    parse_pdf_text_by_toc tocC2 bodyC2 ≠
      [⟨"1.1", "Ensure Test Item", "FAILED", "Do X.", "Do Y.",
        ["http://a"], "cmd --check", "true"⟩] := by
  decide

/-- C2, amended: same end-to-end example, with the references value the
code actually extracts, `["http://a References"]`; every other field is as
the claim states. -/
theorem c2_amended :
    parse_pdf_text_by_toc tocC2 bodyC2 =
      [⟨"1.1", "Ensure Test Item", "FAILED", "Do X.", "Do Y.",
        ["http://a References"], "cmd --check", "true"⟩] := by
  decide

/-! ## Claim C3 -/

/-- C3, counterexample: the claim bounds each record's fields by its own
anchor and the next located anchor.  With entries 1.1, 1.2, 1.3 where the
1.2 anchor is absent from the body, the section for 1.1 is closed by the
code's boundary search for the immediate next entry 1.2 only — which
fails — so it runs to the end of the text, past the located anchor of 1.3
(index 21).  The divergence is pinned to record 1.1: in both bodies its
own anchor is located at 0 and the next located anchor (1.3's, located in
both outputs, as the number lists show) at 21, and the two normalized
bodies agree on the whole claimed bounding substring [0, 21) — they agree
even up to index 31 and differ only past it — yet the FIRST record, the
one for entry 1.1, has a different `info` in the two outputs. -/
theorem c3_counterexample :
    (normalizeChars bodyC3a.data).take 21 = (normalizeChars bodyC3b.data).take 21 ∧
    bodyC3a.data.take 31 = bodyC3b.data.take 31 ∧
    strFind (normalizeChars bodyC3a.data) (anchorOf ⟨"1.1", "Alpha"⟩) = some 0 ∧
    strFind (normalizeChars bodyC3b.data) (anchorOf ⟨"1.1", "Alpha"⟩) = some 0 ∧
    strFind (normalizeChars bodyC3a.data) (anchorOf ⟨"1.3", "Gamma"⟩) = some 21 ∧
    strFind (normalizeChars bodyC3b.data) (anchorOf ⟨"1.3", "Gamma"⟩) = some 21 ∧
    (parse_pdf_text_by_toc tocC3 bodyC3a).map Record.number = ["1.1", "1.3"] ∧
    (parse_pdf_text_by_toc tocC3 bodyC3b).map Record.number = ["1.1", "1.3"] ∧
    (parse_pdf_text_by_toc tocC3 bodyC3a).head?.map Record.info
      = some "hello 1.3 Gamma beta" ∧
    (parse_pdf_text_by_toc tocC3 bodyC3b).head?.map Record.info
      = some "hello 1.3 Gamma gamma" ∧
    (parse_pdf_text_by_toc tocC3 bodyC3a).head?.map Record.info
      ≠ (parse_pdf_text_by_toc tocC3 bodyC3b).head?.map Record.info := by
  refine ⟨by decide, by decide, by decide, by decide, by decide, by decide, by decide,
    by decide, by decide, by decide, by decide⟩

/-- C3, amended: each record's fields are computed solely from the section
the loop carves for it: from its own located anchor up to the first
occurrence of the IMMEDIATELY FOLLOWING TOC entry's anchor after the
current anchor — end of text if that search fails (even when a later
entry's anchor is located) or if the entry is last.  The output is exactly
the per-section field extraction mapped over these sections. -/
theorem c3_amended (toc_text full_text : String) :
    parse_pdf_text_by_toc toc_text full_text
      = (codeSegments (normalizeChars full_text.data) (tocEntries toc_text)).map
          (fun p => buildRecord p.1 p.2) :=
  parsePdfAux_eq_segments _ _

/-! ## Claim C4 -/

/-- C4: the (number, description) projection of the output is a sublist of
the TOC entry sequence — records appear in TOC order — and there are at
most as many records as TOC entries. -/
theorem c4_order_preservation (toc_text full_text : String) :
    ((parse_pdf_text_by_toc toc_text full_text).map
        (fun r => (r.number, r.description))).Sublist
      ((tocEntries toc_text).map (fun e => (e.number, e.description))) ∧
    (parse_pdf_text_by_toc toc_text full_text).length ≤ (tocEntries toc_text).length := by
  have h : (parse_pdf_text_by_toc toc_text full_text).map
        (fun r => (r.number, r.description))
      = ((tocEntries toc_text).filter
          (fun e => (strFind (normalizeChars full_text.data) (anchorOf e)).isSome)).map
          (fun e => (e.number, e.description)) := by
    unfold parse_pdf_text_by_toc
    rw [List.map_map]
    exact parsePdfAux_numdesc _ _
  constructor
  · rw [h]
    exact (List.filter_sublist _).map _
  · have := congrArg List.length h
    simp only [List.length_map] at this
    rw [this]
    exact ((List.filter_sublist _).length_le).trans (by simp)

/-! ## Claim C5 -/

/-- C5, counterexample: entry 1.2's anchor does not occur in the body.  The
code emits no record for it and keeps processing, but record 1.1 is NOT
identical to what it would be without the 1.2 entry: with 1.2 present the
1.1 section-end search looks only for "1.2 Beta" (failing, so the section
runs to the end of text), while without it the search finds "1.3 Gamma"
and the section stops there — so record 1.1's `info` differs. -/
theorem c5_counterexample :
    strFind (normalizeChars bodyC5.data) (anchorOf ⟨"1.2", "Beta"⟩) = none ∧
    tocEntries tocC5 = [⟨"1.1", "Alpha"⟩, ⟨"1.2", "Beta"⟩, ⟨"1.3", "Gamma"⟩] ∧
    tocEntries tocC5drop = [⟨"1.1", "Alpha"⟩, ⟨"1.3", "Gamma"⟩] ∧
    (parse_pdf_text_by_toc tocC5 bodyC5).map Record.number = ["1.1", "1.3"] ∧
    (parse_pdf_text_by_toc tocC5drop bodyC5).map Record.number = ["1.1", "1.3"] ∧
    (parse_pdf_text_by_toc tocC5 bodyC5).map Record.info ≠
      (parse_pdf_text_by_toc tocC5drop bodyC5).map Record.info := by
  refine ⟨by decide, by decide, by decide, by decide, by decide, by decide⟩

/-- C5, amended: when an entry's anchor string does not occur in the
normalized body, no exception is possible (the embedding is total, as is
the loop in the code), no record is emitted for that entry, the remaining
entries are still processed, and every other record keeps its identity
(number, description) and relative order — though the extracted fields of
the preceding record may change, because its section-end boundary is
searched against a different next entry. -/
theorem c5_amended (full : List Char) (L1 L2 : List TocEntry) (e : TocEntry)
    (h : strFind full (anchorOf e) = none) :
    (parsePdfAux full (L1 ++ e :: L2)).map (fun p => (p.2.number, p.2.description))
      = (parsePdfAux full (L1 ++ L2)).map (fun p => (p.2.number, p.2.description)) := by
  rw [parsePdfAux_numdesc, parsePdfAux_numdesc, List.filter_append, List.filter_append,
    List.filter_cons]
  simp [h]

/-- C5, witness for the amended theorem at a concrete input. -/
theorem c5_amended_witness :
    (parsePdfAux (normalizeChars bodyC5.data)
        ([⟨"1.1", "Alpha"⟩] ++ ⟨"1.2", "Beta"⟩ :: [⟨"1.3", "Gamma"⟩])).map
          (fun p => (p.2.number, p.2.description))
      = (parsePdfAux (normalizeChars bodyC5.data)
          ([⟨"1.1", "Alpha"⟩] ++ [⟨"1.3", "Gamma"⟩])).map
            (fun p => (p.2.number, p.2.description)) :=
  c5_amended _ _ _ _ (by decide)

/-! ## Claim C10: references is always a one-element list -/

theorem length_dropWhile_le' (p : Char → Bool) (l : List Char) :
    (l.dropWhile p).length ≤ l.length :=
  (List.dropWhile_sublist p).length_le

/-- The third substitution pass removes every newline (sufficient fuel
provided, as the top-level call does). -/
theorem noNl_subNewlinesF : ∀ (f : Nat) (l : List Char), l.length ≤ f →
    '\n' ∉ subNewlinesF f l := by
  intro f
  induction f with
  | zero =>
    intro l hl
    have hnil : l = [] := List.eq_nil_of_length_eq_zero (Nat.le_zero.1 hl)
    subst hnil
    simp [subNewlinesF]
  | succ f ih =>
    intro l hl
    cases l with
    | nil => simp [subNewlinesF]
    | cons c r =>
      have hr : r.length ≤ f := Nat.le_of_succ_le_succ (by simpa using hl)
      simp only [subNewlinesF]
      by_cases h : '\n' ∈ (c :: r).takeWhile isWs
      · rw [if_pos h]
        intro hm
        rcases List.mem_cons.1 hm with hm | hm
        · exact absurd hm (by decide)
        · have hcw : isWs c := by
            by_contra hc
            rw [List.takeWhile_cons, if_neg hc] at h
            simp at h
          rw [List.dropWhile_cons, if_pos hcw] at hm
          exact ih _ (le_trans (length_dropWhile_le' _ _) hr) hm
      · rw [if_neg h]
        intro hm
        rcases List.mem_cons.1 hm with hm | hm
        · apply h
          rw [← hm] at *
          rw [List.takeWhile_cons, if_pos (by decide)]
          exact List.mem_cons_self _ _
        · exact ih _ hr hm

/-- The space-collapsing pass introduces no newline. -/
theorem noNl_subSpaces (l : List Char) (h : '\n' ∉ l) : '\n' ∉ subSpaces l := by
  induction l with
  | nil => simp [subSpaces]
  | cons c r ih =>
    have hc : ('\n' : Char) ≠ c := fun hh => h (by simp [← hh])
    have hr : '\n' ∉ r := fun hh => h (by simp [hh])
    simp only [subSpaces]
    by_cases hw : isWs c
    · simp only [hw, if_true]
      cases r with
      | nil => simp
      | cons c2 t =>
        by_cases hw2 : isWs c2
        · simpa [hw2] using ih hr
        · simpa [hw2] using ih hr
    · rw [if_neg hw]
      intro hm
      rcases List.mem_cons.1 hm with hm | hm
      · exact hc hm
      · exact ih hr hm

/-- Stripping keeps only characters of the input. -/
theorem mem_stripChars {c : Char} {l : List Char} (h : c ∈ stripChars l) : c ∈ l := by
  unfold stripChars at h
  rw [List.mem_reverse] at h
  have h1 := (List.dropWhile_sublist (l := (l.dropWhile isWs).reverse) (p := isWs)).subset h
  rw [List.mem_reverse] at h1
  exact (List.dropWhile_sublist (l := l) (p := isWs)).subset h1

/-- The normalized body text contains no newline. -/
theorem noNl_normalizeChars (l : List Char) : '\n' ∉ normalizeChars l := by
  have key : ∀ x : List Char, '\n' ∉ stripChars (subSpaces (subNewlinesF x.length x)) := by
    intro x hm
    exact noNl_subSpaces _ (noNl_subNewlinesF x.length x le_rfl) (mem_stripChars hm)
  intro h
  exact key _ (by simpa [normalizeChars] using h)

/-- Splitting a newline-free list on newlines yields the single piece. -/
theorem splitNl_of_noNl (l : List Char) (h : '\n' ∉ l) : splitNl l = [l] := by
  induction l with
  | nil => rfl
  | cons c r ih =>
    have hc : c ≠ '\n' := fun hh => h (by simp [hh])
    have hr : '\n' ∉ r := fun hh => h (by simp [hh])
    simp [splitNl, ih hr, hc]

/-- The lazy capture is a prefix (hence a sublist) of its input. -/
theorem lazyCapture_sublist (stops : List (List Char)) (l : List Char) :
    (lazyCapture stops l).Sublist l := by
  induction l with
  | nil => simp [lazyCapture]
  | cons c t ih =>
    simp only [lazyCapture]
    by_cases h : stopCheck stops (c :: t)
    · simp [h]
    · simpa [h] using ih.cons₂ c

/-- A captured group consists of characters of the searched string. -/
theorem searchCapture_sublist (label : List Char) (stops : List (List Char)) :
    ∀ (l v : List Char), searchCapture label stops l = some v → v.Sublist l := by
  intro l
  induction l with
  | nil =>
    intro v h
    simp only [searchCapture] at h
    by_cases hl : label.isEmpty
    · simp only [hl, if_true, Option.some.injEq] at h
      simp [← h]
    · simp [hl] at h
  | cons c t ih =>
    intro v h
    simp only [searchCapture] at h
    by_cases hp : label.isPrefixOf (c :: t)
    · simp only [hp, if_true, Option.some.injEq] at h
      subst h
      exact ((lazyCapture_sublist _ _).trans
        (List.dropWhile_sublist _)).trans (List.drop_sublist _ _)
    · simp only [hp, if_false] at h
      exact (ih v h).trans (List.sublist_cons_self c t)

/-- Every carved section is a sublist of the full text. -/
theorem codeSegments_slice (full : List Char) (L : List TocEntry) :
    ∀ p ∈ codeSegments full L, p.2.Sublist full := by
  induction L with
  | nil => simp [codeSegments]
  | cons e rest ih =>
    simp only [codeSegments]
    cases h : strFind full (anchorOf e) with
    | none => exact ih
    | some si =>
      intro p hp
      rcases List.mem_cons.1 hp with hp | hp
      · subst hp
        exact ((List.take_sublist _ _).trans (List.drop_sublist _ _))
      · exact ih p hp

/-- A newline-free section gives a one-element references list. -/
theorem buildRecord_references_length (e : TocEntry) (sc : List Char)
    (h : '\n' ∉ sc) : (buildRecord e sc).references.length = 1 := by
  simp only [buildRecord]
  cases hs : searchCapture "References".data ["Audit File".data] sc with
  | none => rfl
  | some v =>
    have hv : '\n' ∉ v := fun hm => h ((searchCapture_sublist _ _ _ _ hs).subset hm)
    have hsv : '\n' ∉ stripChars v := fun hm => hv (mem_stripChars hm)
    simp [splitNl_of_noNl _ hsv]

/-- C10: every record's `references` field is a list of exactly one
string: normalization has replaced every newline of the body by a space,
so the captured References text cannot contain a line break to split on,
and an absent label yields the one-element list `["N/A"]`. -/
theorem c10_references_singleton (toc_text full_text : String) (r : Record)
    (h : r ∈ parse_pdf_text_by_toc toc_text full_text) :
    r.references.length = 1 := by
  rw [parse_pdf_text_by_toc, parsePdfAux_eq_segments] at h
  rcases List.mem_map.1 h with ⟨p, hp, hr⟩
  subst hr
  refine buildRecord_references_length _ _ (fun hm => ?_)
  exact noNl_normalizeChars full_text.data
    ((codeSegments_slice _ _ p hp).subset hm)

/-- C10, witness: a concrete record of a concrete call, whose references
field the theorem forces to be a one-element list. -/
theorem c10_witness :
    (⟨"1.1", "A", "N/A", "N/A", "N/A", ["N/A"], "N/A", "N/A"⟩ : Record) ∈
      parse_pdf_text_by_toc "• 1.1 A ...... 2" "1.1 A" ∧
    (⟨"1.1", "A", "N/A", "N/A", "N/A", ["N/A"], "N/A", "N/A"⟩ : Record).references.length = 1 :=
  ⟨by decide, c10_references_singleton "• 1.1 A ...... 2" "1.1 A" _ (by decide)⟩

theorem subSpaces_cons_of_not_ws {c : Char} (t : List Char) (h : ¬ isWs c) :
    subSpaces (c :: t) = c :: subSpaces t := by
  simp [subSpaces, h]

theorem subSpaces_single_ws {c : Char} (h : isWs c) : subSpaces [c] = [' '] := by
  simp [subSpaces, h]

theorem subSpaces_cons_ws_ws {c c2 : Char} (t : List Char) (h : isWs c)
    (h2 : isWs c2) : subSpaces (c :: c2 :: t) = subSpaces (c2 :: t) := by
  simp [subSpaces, h, h2]

theorem subSpaces_cons_ws_nws {c c2 : Char} (t : List Char) (h : isWs c)
    (h2 : ¬ isWs c2) : subSpaces (c :: c2 :: t) = ' ' :: subSpaces (c2 :: t) := by
  simp [subSpaces, h, h2]

theorem chain'_subSpaces (l : List Char) : NoWsPair (subSpaces l) := by
  induction l with
  | nil => simp [subSpaces, NoWsPair]
  | cons c r ih =>
    by_cases hw : isWs c
    · cases r with
      | nil =>
        rw [subSpaces_single_ws hw]
        exact List.chain'_singleton _
      | cons c2 t =>
        by_cases hw2 : isWs c2
        · rwa [subSpaces_cons_ws_ws t hw hw2]
        · rw [subSpaces_cons_ws_nws t hw hw2, subSpaces_cons_of_not_ws _ hw2]
          rw [subSpaces_cons_of_not_ws _ hw2] at ih
          exact List.chain'_cons.2 ⟨fun hp => hw2 hp.2, ih⟩
    · rw [subSpaces_cons_of_not_ws _ hw]
      cases hsr : subSpaces r with
      | nil => exact List.chain'_singleton _
      | cons d u =>
        rw [hsr] at ih
        exact List.chain'_cons.2 ⟨fun hp => hw hp.1, ih⟩

theorem wsSp_subSpaces (l : List Char) : wsSp (subSpaces l) := by
  induction l with
  | nil => intro c hc; simp [subSpaces] at hc
  | cons c r ih =>
    by_cases hw : isWs c
    · cases r with
      | nil =>
        intro d hd
        rw [subSpaces_single_ws hw] at hd
        intro
        rcases List.mem_singleton.1 hd with rfl
        rfl
      | cons c2 t =>
        by_cases hw2 : isWs c2
        · rwa [subSpaces_cons_ws_ws t hw hw2]
        · intro d hd hdw
          rw [subSpaces_cons_ws_nws t hw hw2] at hd
          rcases List.mem_cons.1 hd with rfl | hd
          · rfl
          · exact ih d hd hdw
    · intro d hd hdw
      rw [subSpaces_cons_of_not_ws _ hw] at hd
      rcases List.mem_cons.1 hd with rfl | hd
      · exact absurd hdw hw
      · exact ih d hd hdw

theorem headOk_dropWhile (l : List Char) : headOk (l.dropWhile isWs) := by
  induction l with
  | nil => intro c hc; simp at hc
  | cons a t ih =>
    by_cases ha : isWs a
    · rw [List.dropWhile_cons, if_pos ha]; exact ih
    · rw [List.dropWhile_cons, if_neg ha]
      intro c hc
      rw [List.head?_cons, Option.some.injEq] at hc
      subst hc
      exact ha

theorem lastOk_dropWhile {l : List Char} (h : lastOk l) (p : Char → Bool) :
    lastOk (l.dropWhile p) := by
  intro c hc
  rcases List.dropWhile_suffix p (l := l) with ⟨t, ht⟩
  apply h c
  rw [← ht, List.getLast?_append, hc]
  rfl

theorem headOk_stripChars (l : List Char) : headOk (stripChars l) := by
  unfold stripChars
  intro c hc
  rw [List.head?_reverse] at hc
  have hlast : lastOk ((l.dropWhile isWs).reverse) := by
    intro d hd
    rw [List.getLast?_reverse] at hd
    exact headOk_dropWhile l d hd
  exact lastOk_dropWhile hlast isWs c hc

theorem lastOk_stripChars (l : List Char) : lastOk (stripChars l) := by
  unfold stripChars
  intro c hc
  rw [List.getLast?_reverse] at hc
  exact headOk_dropWhile _ c hc

theorem NoWsPair_stripChars {l : List Char} (h : NoWsPair l) :
    NoWsPair (stripChars l) := by
  unfold stripChars
  have h1 : NoWsPair (l.dropWhile isWs) := h.suffix (List.dropWhile_suffix isWs)
  have h2 : NoWsPair ((l.dropWhile isWs).reverse) :=
    List.chain'_reverse.2 (h1.imp (fun a b hab hp => hab ⟨hp.2, hp.1⟩))
  have h3 : NoWsPair (((l.dropWhile isWs).reverse).dropWhile isWs) :=
    h2.suffix (List.dropWhile_suffix isWs)
  exact List.chain'_reverse.2 (h3.imp (fun a b hab hp => hab ⟨hp.2, hp.1⟩))

theorem wsSp_stripChars {l : List Char} (h : wsSp l) : wsSp (stripChars l) :=
  fun c hc => h c (mem_stripChars hc)

/-- Pass 1 is the identity on newline-free text (its pattern needs `\n`). -/
theorem subDotBreakF_id : ∀ (f : Nat) (l : List Char), '\n' ∉ l →
    subDotBreakF f l = l := by
  intro f
  induction f with
  | zero => intro l _; rfl
  | succ f ih =>
    intro l hl
    cases l with
    | nil => rfl
    | cons c r =>
      have hw : '\n' ∉ (c :: r).takeWhile isWs :=
        fun hm => hl ((List.takeWhile_sublist isWs).subset hm)
      simp only [subDotBreakF, if_neg hw]
      rw [ih r (fun hm => hl (List.mem_cons_of_mem c hm))]

/-- Pass 2 is the identity on newline-free text. -/
theorem subHyphenBreakF_id : ∀ (f : Nat) (l : List Char), '\n' ∉ l →
    subHyphenBreakF f l = l := by
  intro f
  induction f with
  | zero => intro l _; rfl
  | succ f ih =>
    intro l hl
    cases l with
    | nil => rfl
    | cons c r =>
      have hw : ¬(c = '-' ∧ '\n' ∈ r.takeWhile isWs) := by
        rintro ⟨-, hm⟩
        exact hl (List.mem_cons_of_mem c ((List.takeWhile_sublist isWs).subset hm))
      simp only [subHyphenBreakF, if_neg hw]
      rw [ih r (fun hm => hl (List.mem_cons_of_mem c hm))]

/-- Pass 3 is the identity on newline-free text. -/
theorem subNewlinesF_id : ∀ (f : Nat) (l : List Char), '\n' ∉ l →
    subNewlinesF f l = l := by
  intro f
  induction f with
  | zero => intro l _; rfl
  | succ f ih =>
    intro l hl
    cases l with
    | nil => rfl
    | cons c r =>
      have hw : '\n' ∉ (c :: r).takeWhile isWs :=
        fun hm => hl ((List.takeWhile_sublist isWs).subset hm)
      simp only [subNewlinesF, if_neg hw]
      rw [ih r (fun hm => hl (List.mem_cons_of_mem c hm))]

/-- Pass 4 is the identity when every whitespace character is an isolated
space and the text does not end in whitespace. -/
theorem subSpaces_id : ∀ l : List Char, NoWsPair l → wsSp l → lastOk l →
    subSpaces l = l := by
  intro l
  induction l with
  | nil => intro _ _ _; rfl
  | cons c r ih =>
    intro h1 h2 h3
    by_cases hw : isWs c
    · have hc : c = ' ' := h2 c (List.mem_cons_self _ _) hw
      cases r with
      | nil => exact absurd (h3 c (by simp)) (by simp [hw])
      | cons c2 t =>
        have hw2 : ¬ isWs c2 := fun hww => (List.chain'_cons.1 h1).1 ⟨hw, hww⟩
        have hrec : subSpaces (c2 :: t) = c2 :: t := by
          refine ih (List.chain'_cons.1 h1).2 (fun d hd => h2 d (List.mem_cons_of_mem c hd))
            (fun d hd => h3 d ?_)
          rwa [List.getLast?_cons_cons]
        rw [subSpaces_cons_ws_nws t hw hw2, hrec, hc]
    · rw [subSpaces_cons_of_not_ws _ hw]
      cases r with
      | nil => rfl
      | cons c2 t =>
        have hrec : subSpaces (c2 :: t) = c2 :: t := by
          refine ih (List.chain'_cons.1 h1).2 (fun d hd => h2 d (List.mem_cons_of_mem c hd))
            (fun d hd => h3 d ?_)
          rwa [List.getLast?_cons_cons]
        rw [hrec]

theorem dropWhile_eq_self_of_headOk {l : List Char} (h : headOk l) :
    l.dropWhile isWs = l := by
  cases l with
  | nil => rfl
  | cons c t => rw [List.dropWhile_cons, if_neg (h c rfl)]

/-- Stripping is the identity when neither end is whitespace. -/
theorem stripChars_id {l : List Char} (hh : headOk l) (hl : lastOk l) :
    stripChars l = l := by
  unfold stripChars
  rw [dropWhile_eq_self_of_headOk hh]
  have : headOk l.reverse := by
    intro c hc
    rw [List.head?_reverse] at hc
    exact hl c hc
  rw [dropWhile_eq_self_of_headOk this, List.reverse_reverse]

/-- C8: the four-pass whitespace normalization of the body text is
idempotent — normalizing an already-normalized string is a no-op. -/
theorem c8_normalize_idempotent (l : List Char) :
    normalizeChars (normalizeChars l) = normalizeChars l := by
  have hshape : ∀ x : List Char, ∃ y : List Char,
      normalizeChars x = stripChars (subSpaces y) := fun x => ⟨_, rfl⟩
  rcases hshape l with ⟨y, hy⟩
  have hN : '\n' ∉ normalizeChars l := noNl_normalizeChars l
  have hChain : NoWsPair (normalizeChars l) := by
    rw [hy]; exact NoWsPair_stripChars (chain'_subSpaces y)
  have hSp : wsSp (normalizeChars l) := by
    rw [hy]; exact wsSp_stripChars (wsSp_subSpaces y)
  have hHead : headOk (normalizeChars l) := by rw [hy]; exact headOk_stripChars _
  have hLast : lastOk (normalizeChars l) := by rw [hy]; exact lastOk_stripChars _
  have e1 := subDotBreakF_id (normalizeChars l).length _ hN
  conv_lhs => rw [normalizeChars]
  rw [e1, subHyphenBreakF_id _ _ hN, subNewlinesF_id _ _ hN,
    subSpaces_id _ hChain hSp hLast, stripChars_id hHead hLast]

/-! ## Claim C6: the type field -/

/-- If the bracketed-marker test fails at every position, the bracket
search fails. -/
theorem searchBracket_none : ∀ l : List Char,
    (∀ i, i < l.length → bracketAt (l.drop i) = none) → searchBracket l = none := by
  intro l
  induction l with
  | nil => intro _; rfl
  | cons c t ih =>
    intro h
    have h0 : bracketAt (c :: t) = none := h 0 (by simp)
    simp only [searchBracket, h0]
    exact ih (fun i hi => by
      have := h (i + 1) (by simpa using hi)
      simpa [List.drop_succ_cons] using this)

/-- If the fallback test fails at every position, the fallback search
fails. -/
theorem searchFallback_none : ∀ l : List Char,
    (∀ i, i < l.length → fallbackAt (l.drop i) = none) → searchFallback l = none := by
  intro l
  induction l with
  | nil => intro _; rfl
  | cons c t ih =>
    intro h
    have h0 : fallbackAt (c :: t) = none := h 0 (by simp)
    simp only [searchFallback, h0]
    exact ih (fun i hi => by
      have := h (i + 1) (by simpa using hi)
      simpa [List.drop_succ_cons] using this)

/-- If the fallback test succeeds somewhere and every success carries the
same word, the fallback search returns that word. -/
theorem searchFallback_some : ∀ (l : List Char) (w : String),
    (∃ i, i < l.length ∧ fallbackAt (l.drop i) = some w) →
    (∀ i, i < l.length → fallbackAt (l.drop i) = none ∨ fallbackAt (l.drop i) = some w) →
    searchFallback l = some w := by
  intro l
  induction l with
  | nil =>
    rintro w ⟨i, hi, -⟩
    simp at hi
  | cons c t ih =>
    rintro w ⟨i, hi, he⟩ hu
    cases h0 : fallbackAt (c :: t) with
    | some w' =>
      have := hu 0 (by simp)
      rw [List.drop_zero] at this
      rcases this with h' | h'
      · rw [h0] at h'; cases h'
      · rw [h0] at h'
        simp only [searchFallback, h0]
        exact h'
    | none =>
      simp only [searchFallback, h0]
      cases i with
      | zero =>
        rw [List.drop_zero] at he
        rw [h0] at he; cases he
      | succ j =>
        refine ih w ⟨j, by simpa using hi, by simpa [List.drop_succ_cons] using he⟩
          (fun k hk => ?_)
        have := hu (k + 1) (by simpa using hk)
        simpa [List.drop_succ_cons] using this

/-- C6, counterexample: the segment "Policy Value FAILED" contains no
bracketed status marker and contains the "Policy Value" label immediately
followed (one space) by the status word FAILED, yet the extracted type is
"N/A": the code's fallback pattern `Policy Value\s*\n\s*(...)` demands a
newline between the label and the status word, and a plain space does not
match it. -/
theorem c6_counterexample :
    (∀ i, i < "Policy Value FAILED".data.length →
      bracketAt ("Policy Value FAILED".data.drop i) = none) ∧
    "Policy Value FAILED".data = "Policy Value".data ++ ' ' :: "FAILED".data ∧
    extractType "Policy Value FAILED".data = "N/A" := by
  refine ⟨by decide, by decide, by decide⟩

/-- C6, amended: for every segment with no bracketed status marker at any
position, (a) if the fallback pattern — a case-insensitive "Policy Value"
label followed by a whitespace run CONTAINING A LINE BREAK and then one of
the three status words — matches at some position, and every position where
it matches yields the same status word, then the type field is that word
(uppercased); (b) if the fallback pattern matches nowhere, the type field
is exactly "N/A". -/
theorem c6_amended :
    (∀ (sc : List Char) (w : String),
      (∀ i, i < sc.length → bracketAt (sc.drop i) = none) →
      (∃ i, i < sc.length ∧ fallbackAt (sc.drop i) = some w) →
      (∀ i, i < sc.length → fallbackAt (sc.drop i) = none ∨ fallbackAt (sc.drop i) = some w) →
      extractType sc = w) ∧
    (∀ sc : List Char,
      (∀ i, i < sc.length → bracketAt (sc.drop i) = none) →
      (∀ i, i < sc.length → fallbackAt (sc.drop i) = none) →
      extractType sc = "N/A") := by
  constructor
  · intro sc w hb hex hu
    unfold extractType
    rw [searchBracket_none sc hb, searchFallback_some sc w hex hu]
  · intro sc hb hf
    unfold extractType
    rw [searchBracket_none sc hb, searchFallback_none sc hf]

/-- C6, witness: the amended theorem applied to the segment
"Policy Value\nFAILED" (fallback fires across the newline) and to a
label-free segment (type defaults to "N/A"). -/
theorem c6_amended_witness :
    extractType "Policy Value\nFAILED".data = "FAILED" ∧
    extractType "no marker here".data = "N/A" :=
  ⟨c6_amended.1 "Policy Value\nFAILED".data "FAILED" (by decide) (by decide) (by decide),
   c6_amended.2 "no marker here".data (by decide) (by decide)⟩

/-! ## Symbolic execution of the TOC scan

Infrastructure for claims C7 and C9: how the TOC matcher behaves on a
text decomposed into bullet, numeral path, title, leader dots and page
number. -/

theorem isWs_cases {c : Char} (h : isWs c) :
    c = ' ' ∨ c = '\t' ∨ c = '\n' ∨ c = '\r' ∨ c = '\x0b' ∨ c = '\x0c' := by
  simpa [isWs, or_assoc] using h

theorem ws_not_digit {c : Char} (h : isWs c) : ¬ isDigit c := by
  rcases isWs_cases h with rfl | rfl | rfl | rfl | rfl | rfl <;> decide

theorem ws_ne_dot {c : Char} (h : isWs c) : c ≠ '.' := by
  rcases isWs_cases h with rfl | rfl | rfl | rfl | rfl | rfl <;> decide

theorem ws_ne_bullet {c : Char} (h : isWs c) : c ≠ '•' := by
  rcases isWs_cases h with rfl | rfl | rfl | rfl | rfl | rfl <;> decide

theorem digit_not_ws {c : Char} (h : isDigit c) : ¬ isWs c :=
  fun hw => ws_not_digit hw h

theorem digit_ne_dot {c : Char} (h : isDigit c) : c ≠ '.' := by
  rintro rfl
  exact absurd h (by decide)

theorem digit_ne_bullet {c : Char} (h : isDigit c) : c ≠ '•' := by
  rintro rfl
  exact absurd h (by decide)

theorem digit_ne_nl {c : Char} (h : isDigit c) : c ≠ '\n' := by
  rintro rfl
  exact absurd h (by decide)

/-- Greedy `p*` over a decomposed input: it consumes exactly the
all-`p` prefix when the next character fails `p`. -/
theorem takeWhile_append_all {p : Char → Bool} {a b : List Char}
    (ha : ∀ c ∈ a, p c) (hb : ∀ c, b.head? = some c → ¬ p c) :
    (a ++ b).takeWhile p = a := by
  induction a with
  | nil =>
    cases b with
    | nil => rfl
    | cons c t => simp [List.takeWhile_cons, hb c rfl]
  | cons x a' ih =>
    rw [List.cons_append, List.takeWhile_cons,
      if_pos (ha x (List.mem_cons_self _ _)), ih (fun c hc => ha c (List.mem_cons_of_mem _ hc))]

theorem dropWhile_append_all {p : Char → Bool} {a b : List Char}
    (ha : ∀ c ∈ a, p c) (hb : ∀ c, b.head? = some c → ¬ p c) :
    (a ++ b).dropWhile p = b := by
  induction a with
  | nil =>
    cases b with
    | nil => rfl
    | cons c t => simp [List.dropWhile_cons, hb c rfl]
  | cons x a' ih =>
    rw [List.cons_append, List.dropWhile_cons,
      if_pos (ha x (List.mem_cons_self _ _)), ih (fun c hc => ha c (List.mem_cons_of_mem _ hc))]

theorem renderGroups_nil : renderGroups [] = [] := rfl

theorem renderGroups_cons (g : List Char) (gs : List (List Char)) :
    renderGroups (g :: gs) = '.' :: (g ++ renderGroups gs) := by
  simp [renderGroups]

theorem length_le_renderGroups (groups : List (List Char)) :
    groups.length ≤ (renderGroups groups).length := by
  induction groups with
  | nil => simp [renderGroups_nil]
  | cons g gs ih =>
    rw [renderGroups_cons]
    simp only [List.length_cons, List.length_append]
    omega

theorem renderGroups_head {groups : List (List Char)} {c : Char}
    (h : (renderGroups groups).head? = some c) : c = '.' := by
  cases groups with
  | nil => simp [renderGroups_nil] at h
  | cons g gs =>
    rw [renderGroups_cons, List.head?_cons, Option.some.injEq] at h
    exact h.symm

theorem numTailF_none_of_head {f : Nat} {l : List Char}
    (h : ∀ c, l.head? = some c → c ≠ '.') : numTailF f l = none := by
  cases f with
  | zero => rfl
  | succ f =>
    cases l with
    | nil => rfl
    | cons c r => simp [numTailF, h c rfl]

theorem numTailF_cons_dot (f : Nat) (r : List Char) :
    numTailF (f + 1) ('.' :: r) =
      if (r.takeWhile isDigit).isEmpty then none
      else
        match numTailF f (r.dropWhile isDigit) with
        | some (cs, rest) => some ('.' :: r.takeWhile isDigit ++ cs, rest)
        | none => some ('.' :: r.takeWhile isDigit, r.dropWhile isDigit) := by
  simp [numTailF]

/-- Greedy parse of the group blocks `(\.\d+)+` on a decomposed input. -/
theorem numTailF_render : ∀ (groups : List (List Char)) (rest : List Char) (f : Nat),
    groups.length < f → groups ≠ [] →
    (∀ g ∈ groups, g ≠ [] ∧ ∀ c ∈ g, isDigit c) →
    (∀ c, rest.head? = some c → ¬ isDigit c ∧ c ≠ '.') →
    numTailF f (renderGroups groups ++ rest) = some (renderGroups groups, rest) := by
  intro groups
  induction groups with
  | nil => intro rest f _ hne _ _; exact absurd rfl hne
  | cons g gs ih =>
    intro rest f hf _ hgs hrest
    obtain ⟨hgne, hgd⟩ := hgs g (List.mem_cons_self _ _)
    cases f with
    | zero => omega
    | succ f =>
      have hnext : ∀ c, (renderGroups gs ++ rest).head? = some c →
          ¬ isDigit c ∧ (gs ≠ [] → c = '.') := by
        intro c hc
        cases gs with
        | nil =>
          rw [renderGroups_nil, List.nil_append] at hc
          exact ⟨(hrest c hc).1, fun hne => absurd rfl hne⟩
        | cons g2 gs2 =>
          rw [renderGroups_cons, List.cons_append, List.head?_cons,
            Option.some.injEq] at hc
          subst hc
          exact ⟨by decide, fun _ => rfl⟩
      have htake : ((g ++ (renderGroups gs ++ rest)).takeWhile isDigit) = g :=
        takeWhile_append_all hgd (fun c hc => (hnext c hc).1)
      have hdrop : ((g ++ (renderGroups gs ++ rest)).dropWhile isDigit)
          = renderGroups gs ++ rest :=
        dropWhile_append_all hgd (fun c hc => (hnext c hc).1)
      have hgE : g.isEmpty = false := by
        cases g with
        | nil => exact absurd rfl hgne
        | cons _ _ => rfl
      rw [renderGroups_cons, List.cons_append, List.append_assoc,
        numTailF_cons_dot, htake, hdrop, hgE, if_neg (by simp)]
      cases gs with
      | nil =>
        have hrec : numTailF f (renderGroups ([] : List (List Char)) ++ rest) = none := by
          rw [renderGroups_nil, List.nil_append]
          exact numTailF_none_of_head (fun c hc => (hrest c hc).2)
        rw [hrec, renderGroups_nil, List.nil_append]
        simp
      | cons g2 gs2 =>
        rw [ih rest f (by simp at hf ⊢; omega) (by simp)
          (fun g' hg' => hgs g' (List.mem_cons_of_mem _ hg')) hrest]
        simp

/-- The number group `(\d+(?:\.\d+)+)` consumes exactly the rendered
numeral path when followed by a non-digit non-dot character. -/
theorem numberParse_render (first : List Char) (groups : List (List Char))
    (rest : List Char) (hf : first ≠ []) (hfd : ∀ c ∈ first, isDigit c)
    (hg : groups ≠ []) (hgs : ∀ g ∈ groups, g ≠ [] ∧ ∀ c ∈ g, isDigit c)
    (hrest : ∀ c, rest.head? = some c → ¬ isDigit c ∧ c ≠ '.') :
    numberParse (renderNum first groups ++ rest) = some (renderNum first groups, rest) := by
  have hjoin_head : ∀ c, (renderGroups groups ++ rest).head? = some c →
      ¬ isDigit c := by
    intro c hc
    cases groups with
    | nil => exact absurd rfl hg
    | cons g gs =>
      rw [renderGroups_cons, List.cons_append, List.head?_cons, Option.some.injEq] at hc
      subst hc
      decide
  have htake : ((renderNum first groups ++ rest).takeWhile isDigit) = first := by
    rw [renderNum, List.append_assoc]
    exact takeWhile_append_all hfd hjoin_head
  have hdrop : ((renderNum first groups ++ rest).dropWhile isDigit)
      = renderGroups groups ++ rest := by
    rw [renderNum, List.append_assoc]
    exact dropWhile_append_all hfd hjoin_head
  have hfE : first.isEmpty = false := by
    cases first with
    | nil => exact absurd rfl hf
    | cons _ _ => rfl
  have hfuel : groups.length < (renderNum first groups ++ rest).length := by
    have h1 := length_le_renderGroups groups
    have h2 : 1 ≤ first.length := by
      cases first with
      | nil => exact absurd rfl hf
      | cons _ _ => simp
    simp only [renderNum, List.length_append]
    omega
  unfold numberParse
  rw [htake, hfE, if_neg (by simp), hdrop,
    numTailF_render groups rest _ hfuel hg hgs hrest, renderNum]

/-! ### The trailer and the lazy title on decomposed inputs -/

/-- Leading whitespace is transparent to the trailer test. -/
theorem trailerMatch_ws_cons {c : Char} (x : List Char) (h : isWs c) :
    trailerMatch (c :: x) = trailerMatch x := by
  unfold trailerMatch
  rw [List.dropWhile_cons, if_pos h]

/-- The trailer `\s*\.{3,}\s*\d+` matches a decomposed
whitespace-dots-whitespace-page prefix and returns exactly the rest. -/
theorem trailerMatch_render (ws3 dots ws4 page rest : List Char)
    (hws3 : ∀ c ∈ ws3, isWs c) (hdots : ∀ c ∈ dots, c = '.') (hd3 : 3 ≤ dots.length)
    (hws4 : ∀ c ∈ ws4, isWs c) (hpage : page ≠ []) (hpd : ∀ c ∈ page, isDigit c)
    (hrest : ∀ c, rest.head? = some c → ¬ isDigit c) :
    trailerMatch (ws3 ++ (dots ++ (ws4 ++ (page ++ rest)))) = some rest := by
  have hdne : dots ≠ [] := by
    cases dots with
    | nil => simp at hd3
    | cons _ _ => simp
  have hdotsHead : ∀ c, (dots ++ (ws4 ++ (page ++ rest))).head? = some c → ¬ isWs c := by
    intro c hc
    cases dots with
    | nil => exact absurd rfl hdne
    | cons d ds =>
      rw [List.cons_append, List.head?_cons, Option.some.injEq] at hc
      subst hc
      rw [hdots d (List.mem_cons_self _ _)]
      decide
  have hafterdots : ∀ c, (ws4 ++ (page ++ rest)).head? = some c → ¬ (decide (c = '.') = true) := by
    intro c hc
    cases ws4 with
    | nil =>
      cases page with
      | nil => exact absurd rfl hpage
      | cons p ps =>
        rw [List.nil_append, List.cons_append, List.head?_cons, Option.some.injEq] at hc
        subst hc
        simpa using digit_ne_dot (hpd p (List.mem_cons_self _ _))
    | cons w wsr =>
      rw [List.cons_append, List.head?_cons, Option.some.injEq] at hc
      subst hc
      simpa using ws_ne_dot (hws4 w (List.mem_cons_self _ _))
  have hpageHead : ∀ c, (page ++ rest).head? = some c → ¬ isWs c := by
    intro c hc
    cases page with
    | nil => exact absurd rfl hpage
    | cons p ps =>
      rw [List.cons_append, List.head?_cons, Option.some.injEq] at hc
      subst hc
      exact digit_not_ws (hpd p (List.mem_cons_self _ _))
  have h1 : (ws3 ++ (dots ++ (ws4 ++ (page ++ rest)))).dropWhile isWs
      = dots ++ (ws4 ++ (page ++ rest)) := dropWhile_append_all hws3 hdotsHead
  have h2 : (dots ++ (ws4 ++ (page ++ rest))).takeWhile (· = '.') = dots :=
    takeWhile_append_all (fun c hc => by simp [hdots c hc]) hafterdots
  have h3 : (dots ++ (ws4 ++ (page ++ rest))).dropWhile (· = '.') = ws4 ++ (page ++ rest) :=
    dropWhile_append_all (fun c hc => by simp [hdots c hc]) hafterdots
  have h4 : (ws4 ++ (page ++ rest)).dropWhile isWs = page ++ rest :=
    dropWhile_append_all hws4 hpageHead
  have h5 : (page ++ rest).takeWhile isDigit = page :=
    takeWhile_append_all hpd (fun c hc => hrest c hc)
  have h6 : (page ++ rest).dropWhile isDigit = rest :=
    dropWhile_append_all hpd (fun c hc => hrest c hc)
  have hpE : page.isEmpty = false := by
    cases page with
    | nil => exact absurd rfl hpage
    | cons _ _ => rfl
  unfold trailerMatch
  rw [h1, h2, if_pos hd3, h3, h4, h5, h6, hpE, if_neg (by simp)]

theorem lazyTitle_cons (c : Char) (t : List Char) :
    lazyTitle (c :: t) =
      if c = '\n' then none
      else
        match trailerMatch t with
        | some rest => some ([c], rest)
        | none =>
          match lazyTitle t with
          | some (ti, rest) => some (c :: ti, rest)
          | none => none := rfl

/-- The trailer cannot match while still inside the title: a nonempty
dot-free piece whose last character is not whitespace blocks it. -/
theorem trailerMatch_none_title : ∀ (t : List Char) (suf : List Char), t ≠ [] →
    (∀ c ∈ t, c ≠ '.') → (∃ c, t.getLast? = some c ∧ ¬ isWs c) →
    trailerMatch (t ++ suf) = none := by
  intro t
  induction t with
  | nil => intro _ h _ _; exact absurd rfl h
  | cons c t' ih =>
    intro suf _ hnd hlast
    cases t' with
    | nil =>
      obtain ⟨d, hd, hdw⟩ := hlast
      have hdc : d = c := by simpa using hd.symm
      rw [hdc] at hdw
      have htw : ((c :: suf).takeWhile (· = '.')) = [] := by
        rw [List.takeWhile_cons,
          if_neg (by simpa using hnd c (List.mem_cons_self _ _))]
      unfold trailerMatch
      rw [List.cons_append, List.nil_append, List.dropWhile_cons, if_neg hdw, htw]
      simp
    | cons c2 t'' =>
      by_cases hw : isWs c
      · rw [List.cons_append, trailerMatch_ws_cons _ hw]
        refine ih suf (by simp) (fun d hd => hnd d (List.mem_cons_of_mem _ hd)) ?_
        obtain ⟨d, hd, hdw⟩ := hlast
        rw [List.getLast?_cons_cons] at hd
        exact ⟨d, hd, hdw⟩
      · have htw : ((c :: (c2 :: t'' ++ suf)).takeWhile (· = '.')) = [] := by
          rw [List.takeWhile_cons,
            if_neg (by simpa using hnd c (List.mem_cons_self _ _))]
        unfold trailerMatch
        rw [List.cons_append, List.dropWhile_cons, if_neg hw, htw]
        simp

/-- If the trailer matches right after a nonempty newline-free piece, the
lazy title search succeeds (possibly stopping earlier). -/
theorem lazyTitle_isSome : ∀ (t : List Char) (suf : List Char), t ≠ [] →
    (∀ c ∈ t, c ≠ '\n') → (trailerMatch suf).isSome →
    (lazyTitle (t ++ suf)).isSome := by
  intro t
  induction t with
  | nil => intro _ h _ _; exact absurd rfl h
  | cons c t' ih =>
    intro suf _ hnl hsuf
    cases t' with
    | nil =>
      rw [List.cons_append, List.nil_append]
      cases hm : trailerMatch suf with
      | none => rw [hm] at hsuf; cases hsuf
      | some r =>
        rw [lazyTitle_cons, if_neg (hnl c (List.mem_cons_self _ _)), hm]
        rfl
    | cons c2 t'' =>
      rw [List.cons_append, lazyTitle_cons, if_neg (hnl c (List.mem_cons_self _ _))]
      cases hm : trailerMatch ((c2 :: t'') ++ suf) with
      | some r => rfl
      | none =>
        have hrec := ih suf (by simp) (fun d hd => hnl d (List.mem_cons_of_mem _ hd)) hsuf
        cases hl : lazyTitle ((c2 :: t'') ++ suf) with
        | none => rw [hl] at hrec; cases hrec
        | some p => cases p; rfl

/-- When the title is dot-free, newline-free, nonempty and does not end in
whitespace, the lazy title is forced to capture exactly the title and hand
the rest after the trailer back. -/
theorem lazyTitle_exact : ∀ (t : List Char) (suf r : List Char), t ≠ [] →
    (∀ c ∈ t, c ≠ '\n' ∧ c ≠ '.') → (∃ c, t.getLast? = some c ∧ ¬ isWs c) →
    trailerMatch suf = some r →
    lazyTitle (t ++ suf) = some (t, r) := by
  intro t
  induction t with
  | nil => intro _ _ h _ _ _; exact absurd rfl h
  | cons c t' ih =>
    intro suf r _ hct hlast hsuf
    cases t' with
    | nil =>
      rw [List.cons_append, List.nil_append, lazyTitle_cons,
        if_neg (hct c (List.mem_cons_self _ _)).1, hsuf]
    | cons c2 t'' =>
      have hmid : trailerMatch ((c2 :: t'') ++ suf) = none :=
        trailerMatch_none_title (c2 :: t'') suf (by simp)
          (fun d hd => (hct d (List.mem_cons_of_mem _ hd)).2) (by
            obtain ⟨d, hd, hdw⟩ := hlast
            rw [List.getLast?_cons_cons] at hd
            exact ⟨d, hd, hdw⟩)
      have hrec : lazyTitle ((c2 :: t'') ++ suf) = some (c2 :: t'', r) :=
        ih suf r (by simp) (fun d hd => hct d (List.mem_cons_of_mem _ hd)) (by
          obtain ⟨d, hd, hdw⟩ := hlast
          rw [List.getLast?_cons_cons] at hd
          exact ⟨d, hd, hdw⟩) hsuf
      rw [List.cons_append, lazyTitle_cons,
        if_neg (hct c (List.mem_cons_self _ _)).1, hmid, hrec]

/-! ### The full TOC matcher on a decomposed entry line -/

theorem head?_append_mem {a b : List Char} (ha : a ≠ []) {c : Char}
    (h : (a ++ b).head? = some c) : c ∈ a := by
  cases a with
  | nil => exact absurd rfl ha
  | cons x t =>
    rw [List.cons_append, List.head?_cons, Option.some.injEq] at h
    subst h
    exact List.mem_cons_self _ _

theorem numberParse_none_head {l : List Char}
    (h : ∀ c, l.head? = some c → ¬ isDigit c) : numberParse l = none := by
  have htw : l.takeWhile isDigit = [] := by
    cases l with
    | nil => rfl
    | cons c t => rw [List.takeWhile_cons, if_neg (h c rfl)]
  unfold numberParse
  rw [htw]
  rfl

theorem tocMatchCore_none_head {l : List Char}
    (h : ∀ c, l.head? = some c → ¬ isDigit c) : tocMatchCore l = none := by
  unfold tocMatchCore
  rw [numberParse_none_head h]

theorem tocMatchAt_false_eq (l : List Char) : tocMatchAt false l = tocMatchCore l := rfl

theorem tocMatchAt_true_cons (c : Char) (r : List Char) :
    tocMatchAt true (c :: r) =
      if c = '•' then tocMatchCore (r.dropWhile isWs) else none := rfl

/-- The matcher consumes one whole well-formed entry line exactly, handing
back the rest (which must not begin with a digit, e.g. a newline or
nothing). -/
theorem tocMatchCore_render (first : List Char) (groups : List (List Char))
    (ws2 title ws3 dots ws4 page suf : List Char)
    (hfirst : first ≠ []) (hfd : ∀ c ∈ first, isDigit c)
    (hg : groups ≠ []) (hgs : ∀ g ∈ groups, g ≠ [] ∧ ∀ c ∈ g, isDigit c)
    (hws2ne : ws2 ≠ []) (hws2 : ∀ c ∈ ws2, isWs c)
    (htne : title ≠ []) (htc : ∀ c ∈ title, c ≠ '\n' ∧ c ≠ '.')
    (hthead : ∀ c, title.head? = some c → ¬ isWs c)
    (htlast : ∃ c, title.getLast? = some c ∧ ¬ isWs c)
    (hws3 : ∀ c ∈ ws3, isWs c) (hdots : ∀ c ∈ dots, c = '.') (hd3 : 3 ≤ dots.length)
    (hws4 : ∀ c ∈ ws4, isWs c) (hpage : page ≠ []) (hpd : ∀ c ∈ page, isDigit c)
    (hsuf : ∀ c, suf.head? = some c → ¬ isDigit c) :
    tocMatchCore (renderNum first groups
        ++ (ws2 ++ (title ++ (ws3 ++ (dots ++ (ws4 ++ (page ++ suf)))))))
      = some ((renderNum first groups, title), suf) := by
  have hnum := numberParse_render first groups
    (ws2 ++ (title ++ (ws3 ++ (dots ++ (ws4 ++ (page ++ suf)))))) hfirst hfd hg hgs
    (fun c hc => by
      have hcw := hws2 c (head?_append_mem hws2ne hc)
      exact ⟨ws_not_digit hcw, ws_ne_dot hcw⟩)
  have htb : ∀ c, (title ++ (ws3 ++ (dots ++ (ws4 ++ (page ++ suf))))).head? = some c →
      ¬ isWs c := by
    intro c hc
    rw [List.head?_append_of_ne_nil _ htne] at hc
    exact hthead c hc
  have htw2 : ((ws2 ++ (title ++ (ws3 ++ (dots ++ (ws4 ++ (page ++ suf)))))).takeWhile isWs)
      = ws2 := takeWhile_append_all hws2 htb
  have hdw2 : ((ws2 ++ (title ++ (ws3 ++ (dots ++ (ws4 ++ (page ++ suf)))))).dropWhile isWs)
      = title ++ (ws3 ++ (dots ++ (ws4 ++ (page ++ suf)))) :=
    dropWhile_append_all hws2 htb
  have hws2E : ws2.isEmpty = false := by
    cases ws2 with
    | nil => exact absurd rfl hws2ne
    | cons _ _ => rfl
  have htrailer : trailerMatch (ws3 ++ (dots ++ (ws4 ++ (page ++ suf)))) = some suf :=
    trailerMatch_render ws3 dots ws4 page suf hws3 hdots hd3 hws4 hpage hpd hsuf
  have hlazy : lazyTitle (title ++ (ws3 ++ (dots ++ (ws4 ++ (page ++ suf)))))
      = some (title, suf) :=
    lazyTitle_exact title _ suf htne htc htlast htrailer
  unfold tocMatchCore
  simp only [hnum, htw2, hws2E, hdw2, hlazy]
  simp

/-- Version of the matcher lemma without the dot-free/trailing-whitespace
restrictions on the title: some entry is still matched, with this exact
number group (the lazy title may stop early inside the title). -/
theorem tocMatchCore_render_exists (first : List Char) (groups : List (List Char))
    (ws2 title ws3 dots ws4 page suf : List Char)
    (hfirst : first ≠ []) (hfd : ∀ c ∈ first, isDigit c)
    (hg : groups ≠ []) (hgs : ∀ g ∈ groups, g ≠ [] ∧ ∀ c ∈ g, isDigit c)
    (hws2ne : ws2 ≠ []) (hws2 : ∀ c ∈ ws2, isWs c)
    (htne : title ≠ []) (htc : ∀ c ∈ title, c ≠ '\n')
    (hthead : ∀ c, title.head? = some c → ¬ isWs c)
    (hws3 : ∀ c ∈ ws3, isWs c) (hdots : ∀ c ∈ dots, c = '.') (hd3 : 3 ≤ dots.length)
    (hws4 : ∀ c ∈ ws4, isWs c) (hpage : page ≠ []) (hpd : ∀ c ∈ page, isDigit c)
    (hsuf : ∀ c, suf.head? = some c → ¬ isDigit c) :
    ∃ ti rest, tocMatchCore (renderNum first groups
        ++ (ws2 ++ (title ++ (ws3 ++ (dots ++ (ws4 ++ (page ++ suf)))))))
      = some ((renderNum first groups, ti), rest) := by
  have hnum := numberParse_render first groups
    (ws2 ++ (title ++ (ws3 ++ (dots ++ (ws4 ++ (page ++ suf)))))) hfirst hfd hg hgs
    (fun c hc => by
      have hcw := hws2 c (head?_append_mem hws2ne hc)
      exact ⟨ws_not_digit hcw, ws_ne_dot hcw⟩)
  have htb : ∀ c, (title ++ (ws3 ++ (dots ++ (ws4 ++ (page ++ suf))))).head? = some c →
      ¬ isWs c := by
    intro c hc
    rw [List.head?_append_of_ne_nil _ htne] at hc
    exact hthead c hc
  have htw2 : ((ws2 ++ (title ++ (ws3 ++ (dots ++ (ws4 ++ (page ++ suf)))))).takeWhile isWs)
      = ws2 := takeWhile_append_all hws2 htb
  have hdw2 : ((ws2 ++ (title ++ (ws3 ++ (dots ++ (ws4 ++ (page ++ suf)))))).dropWhile isWs)
      = title ++ (ws3 ++ (dots ++ (ws4 ++ (page ++ suf)))) :=
    dropWhile_append_all hws2 htb
  have hws2E : ws2.isEmpty = false := by
    cases ws2 with
    | nil => exact absurd rfl hws2ne
    | cons _ _ => rfl
  have htrailer : trailerMatch (ws3 ++ (dots ++ (ws4 ++ (page ++ suf)))) = some suf :=
    trailerMatch_render ws3 dots ws4 page suf hws3 hdots hd3 hws4 hpage hpd hsuf
  have hlazy : (lazyTitle (title ++ (ws3 ++ (dots ++ (ws4 ++ (page ++ suf)))))).isSome :=
    lazyTitle_isSome title _ htne htc (by rw [htrailer]; rfl)
  cases hl : lazyTitle (title ++ (ws3 ++ (dots ++ (ws4 ++ (page ++ suf))))) with
  | none => rw [hl] at hlazy; cases hlazy
  | some p =>
    refine ⟨p.1, p.2, ?_⟩
    unfold tocMatchCore
    simp only [hnum, htw2, hws2E, hdw2, hl]
    simp

/-! ### Scan-level lemmas -/

theorem scanTocF_nil (f : Nat) (b : Bool) : scanTocF f b [] = [] := by
  cases f <;> rfl

theorem scanTocF_cons (f : Nat) (b : Bool) (c : Char) (t : List Char) :
    scanTocF (f + 1) b (c :: t) =
      match tocMatchAt b (c :: t) with
      | some (g, rest) => g :: scanTocF f b rest
      | none => scanTocF f b t := rfl

theorem mem_renderGroups {groups : List (List Char)} {c : Char}
    (h : c ∈ renderGroups groups) : c = '.' ∨ ∃ g ∈ groups, c ∈ g := by
  induction groups with
  | nil => simp [renderGroups_nil] at h
  | cons g gs ih =>
    rw [renderGroups_cons] at h
    rcases List.mem_cons.1 h with rfl | h
    · exact Or.inl rfl
    · rcases List.mem_append.1 h with h | h
      · exact Or.inr ⟨g, List.mem_cons_self _ _, h⟩
      · rcases ih h with h | ⟨g', hg', hc⟩
        · exact Or.inl h
        · exact Or.inr ⟨g', List.mem_cons_of_mem _ hg', hc⟩

theorem renderNum_not_ws {first : List Char} {groups : List (List Char)}
    (hfd : ∀ c ∈ first, isDigit c) (hgs : ∀ g ∈ groups, g ≠ [] ∧ ∀ c ∈ g, isDigit c) :
    ∀ c ∈ renderNum first groups, ¬ isWs c := by
  intro c hc
  rcases List.mem_append.1 hc with hc | hc
  · exact digit_not_ws (hfd c hc)
  · rcases mem_renderGroups hc with rfl | ⟨g, hg, hcg⟩
    · decide
    · exact digit_not_ws ((hgs g hg).2 c hcg)

theorem renderNum_ne_nil {first : List Char} {groups : List (List Char)}
    (hfirst : first ≠ []) : renderNum first groups ≠ [] := by
  cases first with
  | nil => exact absurd rfl hfirst
  | cons c t => simp [renderNum]

theorem stripChars_of_not_ws {l : List Char} (h : ∀ c ∈ l, ¬ isWs c) :
    stripChars l = l := by
  refine stripChars_id (fun c hc => ?_) (fun c hc => ?_)
  · exact h c (List.mem_of_mem_head? hc)
  · exact h c (List.mem_of_mem_getLast? hc)

/-! ## Claim C7 -/

/-- C7, counterexample: a TOC line of the claimed shape (bullet, numeral
path "1.1", title, six leader dots, page 5) whose title spans a newline
produces NO entry: the title group of both TOC patterns is `[^\n]+?`,
which cannot cross a newline, and no other part of the pattern can absorb
it, so the parser yields the empty list for this line. -/
theorem c7_counterexample : tocEntries "• 1.1 Ensure\nTest ...... 5" = [] := by
  decide

/-- C7, amended: for every TOC line made of a bullet marker, optional
whitespace, a dot-delimited numeral path with at least one dot, mandatory
whitespace, a title, a run of three-or-more dots (with optional whitespace
around it) and a trailing page number, the parser produces a leading
TocEntry carrying exactly that numeral path — PROVIDED the title contains
no newline (it must also start with a non-whitespace character; it may
contain dots, in which case the captured description may be a prefix of
the title). -/
theorem c7_amended (ws1 first : List Char) (groups : List (List Char))
    (ws2 title ws3 dots ws4 page : List Char)
    (hws1 : ∀ c ∈ ws1, isWs c)
    (hfirst : first ≠ []) (hfd : ∀ c ∈ first, isDigit c)
    (hg : groups ≠ []) (hgs : ∀ g ∈ groups, g ≠ [] ∧ ∀ c ∈ g, isDigit c)
    (hws2ne : ws2 ≠ []) (hws2 : ∀ c ∈ ws2, isWs c)
    (htne : title ≠ []) (htc : ∀ c ∈ title, c ≠ '\n')
    (hthead : ∀ c, title.head? = some c → ¬ isWs c)
    (hws3 : ∀ c ∈ ws3, isWs c) (hdots : ∀ c ∈ dots, c = '.') (hd3 : 3 ≤ dots.length)
    (hws4 : ∀ c ∈ ws4, isWs c) (hpage : page ≠ []) (hpd : ∀ c ∈ page, isDigit c) :
    ∃ (d : String) (rest : List TocEntry),
      tocEntries (String.mk (bulletLine ws1 first groups ws2 title ws3 dots ws4 page))
        = ⟨String.mk (renderNum first groups), d⟩ :: rest := by
  obtain ⟨ti, r', hcore⟩ := tocMatchCore_render_exists first groups ws2 title ws3 dots
    ws4 page [] hfirst hfd hg hgs hws2ne hws2 htne htc hthead hws3 hdots hd3 hws4
    hpage hpd (fun c hc => by simp at hc)
  rw [List.append_nil] at hcore
  have hrnum : ∀ c, (renderNum first groups
      ++ (ws2 ++ (title ++ (ws3 ++ (dots ++ (ws4 ++ page)))))).head? = some c →
      ¬ isWs c := by
    intro c hc
    have hm := head?_append_mem (renderNum_ne_nil hfirst) hc
    exact renderNum_not_ws hfd hgs c hm
  have hma : tocMatchAt true (bulletLine ws1 first groups ws2 title ws3 dots ws4 page)
      = some ((renderNum first groups, ti), r') := by
    rw [bulletLine, tocMatchAt_true_cons, if_pos rfl,
      dropWhile_append_all hws1 hrnum, hcore]
  have hscan : tocScan true (bulletLine ws1 first groups ws2 title ws3 dots ws4 page)
      = (renderNum first groups, ti) :: scanTocF (ws1 ++ (renderNum first groups
          ++ (ws2 ++ (title ++ (ws3 ++ (dots ++ (ws4 ++ page))))))).length true r' := by
    rw [tocScan]
    rw [show (bulletLine ws1 first groups ws2 title ws3 dots ws4 page).length
        = (ws1 ++ (renderNum first groups
          ++ (ws2 ++ (title ++ (ws3 ++ (dots ++ (ws4 ++ page))))))).length + 1 from rfl]
    rw [show bulletLine ws1 first groups ws2 title ws3 dots ws4 page
        = '•' :: (ws1 ++ (renderNum first groups
          ++ (ws2 ++ (title ++ (ws3 ++ (dots ++ (ws4 ++ page))))))) from rfl]
    rw [scanTocF_cons]
    rw [show tocMatchAt true ('•' :: (ws1 ++ (renderNum first groups
          ++ (ws2 ++ (title ++ (ws3 ++ (dots ++ (ws4 ++ page))))))))
        = tocMatchAt true (bulletLine ws1 first groups ws2 title ws3 dots ws4 page)
        from rfl, hma]
  refine ⟨String.mk (stripChars (cleanDescF ti.length ti)),
    (scanTocF (ws1 ++ (renderNum first groups
      ++ (ws2 ++ (title ++ (ws3 ++ (dots ++ (ws4 ++ page))))))).length true r').map
      (fun g => ⟨String.mk (stripChars g.1), String.mk (stripChars (cleanDescF g.2.length g.2))⟩),
    ?_⟩
  simp only [tocEntries]
  rw [hscan, List.isEmpty_cons]
  simp only [Bool.false_eq_true, if_false, List.map_cons]
  rw [stripChars_of_not_ws (renderNum_not_ws hfd hgs)]

/-- C7, witness: the amended theorem instantiated at the line
"• 1.1 Ensure Test Item ...... 5". -/
theorem c7_amended_witness :
    ∃ (d : String) (rest : List TocEntry),
      tocEntries (String.mk (bulletLine [' '] ['1'] [['1']] [' ']
          "Ensure Test Item".data [' '] "......".data [' '] ['5']))
        = ⟨String.mk (renderNum ['1'] [['1']]), d⟩ :: rest :=
  c7_amended [' '] ['1'] [['1']] [' '] "Ensure Test Item".data [' '] "......".data
    [' '] ['5'] (by decide) (by decide) (by decide) (by decide) (by decide)
    (by decide) (by decide) (by decide) (by decide)
    (by intro c hc; cases hc; decide)
    (by decide) (by decide) (by decide) (by decide) (by decide) (by decide)

theorem joinNl_single (x : List Char) : joinNl [x] = x := rfl

theorem joinNl_cons₂ (x y : List Char) (ys : List (List Char)) :
    joinNl (x :: y :: ys) = x ++ '\n' :: joinNl (y :: ys) := rfl

theorem joinNl_map_single (f : LineParts → List Char) (x : LineParts) :
    joinNl ([x].map f) = f x := rfl

theorem joinNl_map_cons₂ (f : LineParts → List Char) (x y : LineParts)
    (ys : List LineParts) :
    joinNl ((x :: y :: ys).map f) = f x ++ '\n' :: joinNl ((y :: ys).map f) := rfl

theorem mem_joinNl {xs : List (List Char)} {c : Char} (h : c ∈ joinNl xs) :
    c = '\n' ∨ ∃ x ∈ xs, c ∈ x := by
  induction xs with
  | nil => simp [joinNl] at h
  | cons x ys ih =>
    cases ys with
    | nil =>
      rw [joinNl_single] at h
      exact Or.inr ⟨x, List.mem_cons_self _ _, h⟩
    | cons y ys' =>
      rw [joinNl_cons₂] at h
      rcases List.mem_append.1 h with h | h
      · exact Or.inr ⟨x, List.mem_cons_self _ _, h⟩
      · rcases List.mem_cons.1 h with rfl | h
        · exact Or.inl rfl
        · rcases ih h with h | ⟨z, hz, hc⟩
          · exact Or.inl h
          · exact Or.inr ⟨z, List.mem_cons_of_mem _ hz, hc⟩

theorem render_ne_nil {L : LineParts} (hwf : L.wf) : L.render ≠ [] := by
  obtain ⟨h1, -⟩ := hwf
  cases hf : L.first with
  | nil => exact absurd hf h1
  | cons c t => simp [LineParts.render, renderNum, hf]

theorem render_not_bullet {L : LineParts} (hwf : L.wf) : ∀ c ∈ L.render, c ≠ '•' := by
  obtain ⟨-, h2, -, h4, -, h6, -, h8, -, -, h11, h12, -, h14, -, h16⟩ := hwf
  intro c hc
  rcases List.mem_append.1 hc with hc | hc
  · rcases List.mem_append.1 hc with hc | hc
    · exact digit_ne_bullet (h2 c hc)
    · rcases mem_renderGroups hc with rfl | ⟨g, hg, hcg⟩
      · decide
      · exact digit_ne_bullet ((h4 g hg).2 c hcg)
  · rcases List.mem_append.1 hc with hc | hc
    · exact ws_ne_bullet (h6 c hc)
    · rcases List.mem_append.1 hc with hc | hc
      · exact (h8 c hc).2.2
      · rcases List.mem_append.1 hc with hc | hc
        · exact ws_ne_bullet (h11 c hc)
        · rcases List.mem_append.1 hc with hc | hc
          · rw [h12 c hc]; decide
          · rcases List.mem_append.1 hc with hc | hc
            · exact ws_ne_bullet (h14 c hc)
            · exact digit_ne_bullet (h16 c hc)

/-- The bullet-free matcher consumes one whole well-formed line. -/
theorem render_matchCore (L : LineParts) (suf : List Char) (hwf : L.wf)
    (hsuf : ∀ c, suf.head? = some c → ¬ isDigit c) :
    tocMatchCore (L.render ++ suf) = some (L.capture, suf) := by
  obtain ⟨h1, h2, h3, h4, h5, h6, h7, h8, h9, h10, h11, h12, h13, h14, h15, h16⟩ := hwf
  have heq : L.render ++ suf = renderNum L.first L.groups
      ++ (L.ws2 ++ (L.title ++ (L.ws3 ++ (L.dots ++ (L.ws4 ++ (L.page ++ suf)))))) := by
    simp [LineParts.render, List.append_assoc]
  rw [heq]
  exact tocMatchCore_render L.first L.groups L.ws2 L.title L.ws3 L.dots L.ws4 L.page suf
    h1 h2 h3 h4 h5 h6 h7 (fun c hc => ⟨(h8 c hc).1, (h8 c hc).2.1⟩) h9 h10 h11 h12 h13
    h14 h15 h16 hsuf

theorem render_head_not_ws {L : LineParts} (hwf : L.wf) (suf : List Char) :
    ∀ c, (L.render ++ suf).head? = some c → ¬ isWs c := by
  intro c hc
  obtain ⟨h1, h2, -, h4, -⟩ := hwf
  have heq : L.render ++ suf = renderNum L.first L.groups
      ++ ((L.ws2 ++ (L.title ++ (L.ws3 ++ (L.dots ++ (L.ws4 ++ L.page))))) ++ suf) := by
    simp [LineParts.render, List.append_assoc]
  rw [heq] at hc
  exact renderNum_not_ws h2 h4 c (head?_append_mem (renderNum_ne_nil h1) hc)

/-- The bulleted matcher consumes one whole well-formed bulleted line. -/
theorem render_matchTrue (L : LineParts) (suf : List Char) (hwf : L.wf)
    (hsuf : ∀ c, suf.head? = some c → ¬ isDigit c) :
    tocMatchAt true ('•' :: ' ' :: (L.render ++ suf)) = some (L.capture, suf) := by
  rw [tocMatchAt_true_cons, if_pos rfl, List.dropWhile_cons, if_pos (by decide),
    dropWhile_eq_self_of_headOk (render_head_not_ws hwf suf)]
  exact render_matchCore L suf hwf hsuf

theorem tocMatchAt_newline (b : Bool) (x : List Char) :
    tocMatchAt b ('\n' :: x) = none := by
  cases b with
  | true => rw [tocMatchAt_true_cons, if_neg (by decide)]
  | false =>
    rw [tocMatchAt_false_eq]
    exact tocMatchCore_none_head (fun c hc => by
      rw [List.head?_cons, Option.some.injEq] at hc
      subst hc
      decide)

/-- The bullet-free scan of newline-joined well-formed lines yields one
captured group pair per line, in order. -/
theorem scan_plain_lines : ∀ (lines : List LineParts) (f : Nat),
    (∀ L ∈ lines, L.wf) → (joinNl (lines.map LineParts.render)).length ≤ f →
    scanTocF f false (joinNl (lines.map LineParts.render))
      = lines.map LineParts.capture := by
  intro lines
  induction lines with
  | nil => intro f _ _; exact scanTocF_nil f false
  | cons L ls ih =>
    intro f hwf hlen
    have hLwf := hwf L (List.mem_cons_self _ _)
    have hrne : 1 ≤ L.render.length := by
      cases hR : L.render with
      | nil => exact absurd hR (render_ne_nil hLwf)
      | cons c r => simp
    cases ls with
    | nil =>
      have hm : tocMatchAt false (L.render ++ []) = some (L.capture, []) := by
        rw [tocMatchAt_false_eq]
        exact render_matchCore L [] hLwf (by simp)
      rw [List.append_nil] at hm
      rw [joinNl_map_single] at hlen ⊢
      cases f with
      | zero => omega
      | succ f =>
        cases hR : L.render with
        | nil => exact absurd hR (render_ne_nil hLwf)
        | cons c r =>
          rw [hR] at hm
          have hstep : scanTocF (f + 1) false (c :: r)
              = L.capture :: scanTocF f false [] := by
            rw [scanTocF_cons, hm]
          rw [hstep, scanTocF_nil]
          rfl
    | cons L2 ls2 =>
      have hm : tocMatchAt false (L.render
          ++ ('\n' :: joinNl ((L2 :: ls2).map LineParts.render)))
          = some (L.capture, '\n' :: joinNl ((L2 :: ls2).map LineParts.render)) := by
        rw [tocMatchAt_false_eq]
        refine render_matchCore L _ hLwf (fun c hc => ?_)
        rw [List.head?_cons, Option.some.injEq] at hc
        subst hc
        decide
      have hlen' : L.render.length + (1 + (joinNl ((L2 :: ls2).map LineParts.render)).length)
          ≤ f := by
        rw [joinNl_map_cons₂, List.length_append, List.length_cons] at hlen
        omega
      cases f with
      | zero => omega
      | succ f1 =>
        cases hR : L.render with
        | nil => exact absurd hR (render_ne_nil hLwf)
        | cons c r =>
          rw [joinNl_map_cons₂, hR, List.cons_append]
          have hm' : tocMatchAt false (c :: (r
              ++ ('\n' :: joinNl ((L2 :: ls2).map LineParts.render))))
              = some (L.capture, '\n' :: joinNl ((L2 :: ls2).map LineParts.render)) := by
            rw [← List.cons_append, ← hR]
            exact hm
          have hstep : scanTocF (f1 + 1) false (c :: (r
              ++ ('\n' :: joinNl ((L2 :: ls2).map LineParts.render))))
              = L.capture :: scanTocF f1 false
                  ('\n' :: joinNl ((L2 :: ls2).map LineParts.render)) := by
            rw [scanTocF_cons, hm']
          rw [hstep]
          cases f1 with
          | zero => omega
          | succ f2 =>
            have hskip : scanTocF (f2 + 1) false
                ('\n' :: joinNl ((L2 :: ls2).map LineParts.render))
                = scanTocF f2 false (joinNl ((L2 :: ls2).map LineParts.render)) := by
              rw [scanTocF_cons, tocMatchAt_newline]
            rw [hskip, ih f2 (fun L' hL' => hwf L' (List.mem_cons_of_mem _ hL'))
              (by omega)]
            rfl

/-- The bulleted scan of newline-joined bulleted well-formed lines yields
the same captured group pairs. -/
theorem scan_bullet_lines : ∀ (lines : List LineParts) (f : Nat),
    (∀ L ∈ lines, L.wf) →
    (joinNl (lines.map (fun L => '•' :: ' ' :: L.render))).length ≤ f →
    scanTocF f true (joinNl (lines.map (fun L => '•' :: ' ' :: L.render)))
      = lines.map LineParts.capture := by
  intro lines
  induction lines with
  | nil => intro f _ _; exact scanTocF_nil f true
  | cons L ls ih =>
    intro f hwf hlen
    have hLwf := hwf L (List.mem_cons_self _ _)
    cases ls with
    | nil =>
      have hm : tocMatchAt true ('•' :: ' ' :: (L.render ++ [])) = some (L.capture, []) :=
        render_matchTrue L [] hLwf (by simp)
      rw [List.append_nil] at hm
      rw [joinNl_map_single] at hlen ⊢
      cases f with
      | zero => simp at hlen
      | succ f =>
        have hstep : scanTocF (f + 1) true ('•' :: ' ' :: L.render)
            = L.capture :: scanTocF f true [] := by
          rw [scanTocF_cons, hm]
        rw [hstep, scanTocF_nil]
        rfl
    | cons L2 ls2 =>
      have hm : tocMatchAt true ('•' :: ' ' :: (L.render
          ++ ('\n' :: joinNl ((L2 :: ls2).map (fun L => '•' :: ' ' :: L.render)))))
          = some (L.capture,
              '\n' :: joinNl ((L2 :: ls2).map (fun L => '•' :: ' ' :: L.render))) := by
        refine render_matchTrue L _ hLwf (fun c hc => ?_)
        rw [List.head?_cons, Option.some.injEq] at hc
        subst hc
        decide
      have hlen' : L.render.length + 2
          + (1 + (joinNl ((L2 :: ls2).map (fun L => '•' :: ' ' :: L.render))).length)
          ≤ f := by
        rw [joinNl_map_cons₂, List.length_append] at hlen
        simp only [List.length_cons] at hlen ⊢
        omega
      cases f with
      | zero => omega
      | succ f1 =>
        rw [joinNl_map_cons₂, List.cons_append, List.cons_append]
        have hstep : scanTocF (f1 + 1) true ('•' :: (' ' :: (L.render
            ++ ('\n' :: joinNl ((L2 :: ls2).map (fun L => '•' :: ' ' :: L.render))))))
            = L.capture :: scanTocF f1 true
                ('\n' :: joinNl ((L2 :: ls2).map (fun L => '•' :: ' ' :: L.render))) := by
          rw [scanTocF_cons, hm]
        rw [hstep]
        cases f1 with
        | zero => omega
        | succ f2 =>
          have hskip : scanTocF (f2 + 1) true
              ('\n' :: joinNl ((L2 :: ls2).map (fun L => '•' :: ' ' :: L.render)))
              = scanTocF f2 true
                  (joinNl ((L2 :: ls2).map (fun L => '•' :: ' ' :: L.render))) := by
            rw [scanTocF_cons, tocMatchAt_newline]
          rw [hskip, ih f2 (fun L' hL' => hwf L' (List.mem_cons_of_mem _ hL'))
            (by omega)]
          rfl

/-- The bulleted pattern finds nothing in bullet-free text. -/
theorem scanTocF_true_no_bullet : ∀ (l : List Char) (f : Nat), '•' ∉ l →
    scanTocF f true l = [] := by
  intro l
  induction l with
  | nil => intro f _; exact scanTocF_nil f true
  | cons c t ih =>
    intro f h
    cases f with
    | zero => rfl
    | succ f =>
      rw [scanTocF_cons, tocMatchAt_true_cons,
        if_neg (fun hc => h (by rw [hc]; exact List.mem_cons_self _ _))]
      exact ih f (fun hm => h (List.mem_cons_of_mem _ hm))

/-- C9, counterexample: the claim promises identical entries for a
bullet-free TOC text and its per-entry-line bulleted version.  The second
entry line here carries the word "note" before its numeral path: the
bullet-free scan still finds "2.2 Beta ...... 4" inside the line, but in
the bulleted text the bulleted pattern (which allows only whitespace
between the bullet and the numeral) fails on that line — and since the
bulleted pattern matched the other line, the bullet-free fallback is not
used, so the entry is lost. -/
theorem c9_counterexample :
    tocEntries "1.1 Alpha ...... 3\nnote 2.2 Beta ...... 4"
      = [⟨"1.1", "Alpha"⟩, ⟨"2.2", "Beta"⟩] ∧
    tocEntries "• 1.1 Alpha ...... 3\n• note 2.2 Beta ...... 4"
      = [⟨"1.1", "Alpha"⟩] := by
  constructor <;> decide

/-- C9, amended: for every TOC text consisting of entry lines of the form
"<numeral path> <title> <dots> <page>" — titles free of newlines, dots and
bullet characters, neither starting nor ending in whitespace, with the
numeral path first on its line — the parser yields exactly the same
ordered TocEntry sequence for the bullet-free text and for the text with
every line prefixed by a bullet marker. -/
theorem c9_amended (lines : List LineParts) (hwf : ∀ L ∈ lines, L.wf) :
    tocEntries (String.mk (joinNl (lines.map LineParts.render)))
      = tocEntries (String.mk (joinNl (lines.map (fun L => '•' :: ' ' :: L.render)))) := by
  cases lines with
  | nil => rfl
  | cons L ls =>
    have hnb : '•' ∉ joinNl ((L :: ls).map LineParts.render) := by
      intro hm
      rcases mem_joinNl hm with h | ⟨x, hx, hc⟩
      · cases h
      · rcases List.mem_map.1 hx with ⟨L', hL', rfl⟩
        exact render_not_bullet (hwf L' hL') _ hc rfl
    have hplainT : tocScan true (joinNl ((L :: ls).map LineParts.render)) = [] :=
      scanTocF_true_no_bullet _ _ hnb
    have hplainF : tocScan false (joinNl ((L :: ls).map LineParts.render))
        = (L :: ls).map LineParts.capture :=
      scan_plain_lines (L :: ls) _ hwf le_rfl
    have hbull : tocScan true (joinNl ((L :: ls).map (fun L => '•' :: ' ' :: L.render)))
        = (L :: ls).map LineParts.capture :=
      scan_bullet_lines (L :: ls) _ hwf le_rfl
    have hne : ((L :: ls).map LineParts.capture).isEmpty = false := by simp
    simp only [tocEntries]
    rw [hplainT, hbull, hne]
    simp only [List.isEmpty_nil, if_true, Bool.false_eq_true, if_false]
    rw [hplainF]

/-- C9, witness: the amended theorem at the two-line TOC
"1.1 Alpha ...... 3" / "2.2 Beta ...... 4". -/
theorem c9_amended_witness :
    tocEntries (String.mk (joinNl ([c9wL1, c9wL2].map LineParts.render)))
      = tocEntries (String.mk (joinNl ([c9wL1, c9wL2].map (fun L => '•' :: ' ' :: L.render)))) :=
  c9_amended [c9wL1, c9wL2] (by
    intro L hL
    rcases List.mem_cons.1 hL with rfl | hL
    · exact ⟨by decide, by decide, by decide, by decide, by decide, by decide, by decide,
        by decide, by intro c hc; cases hc; decide, ⟨'a', by decide, by decide⟩,
        by decide, by decide, by decide, by decide, by decide, by decide⟩
    · rcases List.mem_cons.1 hL with rfl | hL
      · exact ⟨by decide, by decide, by decide, by decide, by decide, by decide, by decide,
          by decide, by intro c hc; cases hc; decide, ⟨'a', by decide, by decide⟩,
          by decide, by decide, by decide, by decide, by decide, by decide⟩
      · cases hL)

end MMLGet
